import Mathlib

/-!
Verification development for the `log-server` crate: a segmented,
append-only record log (Log → Segment → Store + Index).

The Rust sources under `src/log-server/src/` are shallowly embedded as pure
Lean functions.  File and mmap contents are byte lists (`List Nat`, each
element < 256 in reachable states); `u64`/`u32` machine integers are `Nat`
with explicit `% 2^64` / `% 2^32` at the points where the source casts or
wraps.  I/O errors of the underlying OS are outside the model; the explicit
error returns of the source (index full, index empty, read past EOF,
"out of range", decode failure, missing active segment) are modelled by
`Err`, and Rust panics (slice out of bounds, `expect` failures) by the
separate `RustResult.panicked` outcome, since a panic is not an error
return value.
-/

namespace LogServer

/-- Bytes of value `0`, as produced by `File::set_len` extension and by a
fresh writable mmap. -/
def zeros (n : Nat) : List Nat := List.replicate n 0

/-- Little-endian byte encoding of `n` in `w` bytes (`to_le_bytes`);
higher bytes beyond `w` are discarded, matching fixed-width integers. -/
def leBytes : Nat → Nat → List Nat
  | 0, _ => []
  | w + 1, n => n % 256 :: leBytes w (n / 256)

/-- Little-endian byte decoding (`from_le_bytes`). -/
def leDecode : List Nat → Nat
  | [] => 0
  | b :: bs => b + 256 * leDecode bs

/-- `u32::to_le_bytes` (4 bytes). -/
def u32le (n : Nat) : List Nat := leBytes 4 n

/-- `u64::to_le_bytes` (8 bytes). -/
def u64le (n : Nat) : List Nat := leBytes 8 n

/-- `bytes[i..i+n]` of a byte list. -/
def slice (l : List Nat) (i n : Nat) : List Nat := (l.drop i).take n

/-- Overwrite `v` into `l` starting at position `i`
(`(&mut mmap[i..i+v.len()]).write_all(v)`); meaningful when
`i + v.length ≤ l.length`. -/
def writeAt (l : List Nat) (i : Nat) (v : List Nat) : List Nat :=
  l.take i ++ v ++ l.drop (i + v.length)

/-- Wrapping `u64` subtraction `a - b` (release-mode semantics of the
source's unchecked `u64` subtractions). -/
def u64sub (a b : Nat) : Nat := (a + 2 ^ 64 - b) % 2 ^ 64

/-- Reinterpret a `u64` value as `i64` (the source's `as i64` cast). -/
def i64OfU64 (n : Nat) : Int :=
  if n < 2 ^ 63 then (n : Int) else (n : Int) - 2 ^ 64

/-- Truncating `as u32` cast of an `i64` value (low 32 bits of the two's
complement representation). -/
def u32OfI64 (z : Int) : Nat := (z % 2 ^ 32).toNat

/-- Does `hay` start with `needle`? -/
def listStartsWith : List Char → List Char → Bool
  | [], _ => true
  | _ :: _, [] => false
  | a :: as, b :: bs => a = b && listStartsWith as bs

/-- Does `hay` contain `needle` as a contiguous substring? -/
def hasSubstr (hay needle : List Char) : Bool :=
  match hay with
  | [] => needle.isEmpty
  | _ :: hs => listStartsWith needle hay || hasSubstr hs needle

/-- The error returns of the source, with the data needed to render their
messages (`anyhow!`/`io::Error::new` message strings). -/
inductive Err where
  /-- `Index::write`: "mmap length LEN is less than NEED". -/
  | indexFull (len need : Nat)
  /-- `Index::read` on an empty index: `ErrorKind::UnexpectedEof` with
  message `""`. -/
  | indexEmpty
  /-- `read_exact_at` hitting end of file in `Store::read`. -/
  | storeEof
  /-- `Log::read`: "offset=OFF is out of range". -/
  | outOfRange (off : Nat)
  /-- `Log::append`: "there is not active segment". -/
  | noActiveSegment
  /-- `prost` decode failure in `Segment::read`. -/
  | decodeErr
  /-- `Log::lowest_offset`: "segments is empty". -/
  | segsEmptyLow
  /-- `Log::highest_offset`: "empty segments". -/
  | segsEmptyHigh
  deriving DecidableEq

/-- The message string of each error, as the consumer of the `anyhow`
error observes it via `to_string()`. -/
def Err.msg : Err → List Char
  | .indexFull len need =>
      ("mmap length ".toList) ++ (Nat.repr len).toList ++
        (" is less than ".toList) ++ (Nat.repr need).toList
  | .indexEmpty => []
  | .storeEof => "failed to fill whole buffer".toList
  | .outOfRange off =>
      ("offset=".toList) ++ (Nat.repr off).toList ++ (" is out of range".toList)
  | .noActiveSegment => "there is not active segment".toList
  | .decodeErr => "failed to decode Protobuf message".toList
  | .segsEmptyLow => "segments is empty".toList
  | .segsEmptyHigh => "empty segments".toList

/-- Outcome of a fallible Rust call: an `Ok` value, an `Err` return, or a
panic (which is not an error return). -/
inductive RustResult (α : Type) where
  | ok (val : α)
  | err (e : Err)
  | panicked
  deriving DecidableEq

/-- `SegmentConfig` from `config.rs`. -/
structure SegmentConfig where
  max_store_bytes : Nat
  max_index_bytes : Nat
  initial_offset : Nat
  deriving DecidableEq

/-- `Config` from `config.rs`. -/
structure Config where
  segment : SegmentConfig
  deriving DecidableEq

/-- The defaulting performed at the top of `Log::new`: a zero cap is
replaced by 1024. -/
def Config.effective (c : Config) : Config :=
  { segment :=
      { max_store_bytes :=
          if c.segment.max_store_bytes = 0 then 1024 else c.segment.max_store_bytes,
        max_index_bytes :=
          if c.segment.max_index_bytes = 0 then 1024 else c.segment.max_index_bytes,
        initial_offset := c.segment.initial_offset } }

/-- The protobuf `Record` as used by the engine: an opaque byte payload
`value` plus a `u64` `offset`. -/
structure Record where
  value : List Nat
  offset : Nat
  deriving DecidableEq

/-- Modelled from the spec: the byte encoding of the external protobuf
`Record` message (the `protos` crate is not part of this repository).  The
spec treats it as an opaque, stable, round-tripping encoding of both
fields; we model it as the 8-byte little-endian offset followed by the
payload bytes. -/
def Record.encode (r : Record) : List Nat := u64le r.offset ++ r.value

/-- Modelled from the spec: the inverse decoding of `Record.encode`. -/
def Record.decode (bs : List Nat) : Option Record :=
  if 8 ≤ bs.length then
    some { value := bs.drop 8, offset := leDecode (bs.take 8) }
  else none

/-! ## Store (`store.rs`)

The store file plus its buffered writer.  `data` is the logical byte
content (file plus userspace buffer); every `Store::read`/`read_at`
flushes the buffer first, so reads always observe `data`.  `size` is the
cached size field. -/

structure Store where
  data : List Nat
  size : Nat
  deriving DecidableEq

/-- `Store::new`: `size` is initialized from the file's metadata. -/
def Store.new (fileData : List Nat) : Store :=
  { data := fileData, size := fileData.length }

/-- `Store::append`: captures `pos = size`, writes the 8-byte LE length
then the payload, bumps `size` by `8 + p.len()`, returns `(written, pos)`. -/
def Store.append (st : Store) (p : List Nat) : (Nat × Nat) × Store :=
  ((8 + p.length, st.size),
   { data := st.data ++ u64le p.length ++ p,
     size := st.size + (8 + p.length) })

/-- `Store::read`: flushes (a no-op on `data`), reads the 8-byte length at
`pos` and then that many payload bytes at `pos + 8`; `read_exact_at` past
the end of the file is an `UnexpectedEof` error. -/
def Store.read (st : Store) (pos : Nat) : RustResult (List Nat) :=
  if pos + 8 ≤ st.data.length then
    let sz := leDecode (slice st.data pos 8)
    if pos + 8 + sz ≤ st.data.length then .ok (slice st.data (pos + 8) sz)
    else .err .storeEof
  else .err .storeEof

/-- `Store::close` flushes the buffered writer; no effect on the logical
content. -/
def Store.close (st : Store) : RustResult Unit × Store := (.ok (), st)

/-! ## Index (`index.rs`)

A fixed-size writable mmap over the index file.  `mmap` is the mapped byte
content, `size` the number of bytes logically written. -/

structure Index where
  mmap : List Nat
  size : Nat
  deriving DecidableEq

/-- `Index::new`: records the file length as `size`, then extends (or
truncates) the file to `max_index_bytes` with `set_len` — extension reads
back as zero bytes — and maps the whole file. -/
def Index.new (fileData : List Nat) (maxIndexBytes : Nat) : Index :=
  { size := fileData.length,
    mmap := fileData.take maxIndexBytes ++ zeros (maxIndexBytes - fileData.length) }

/-- `Index::write`: fails (leaving the index untouched) when the mmap
length is below `size + 12`; otherwise writes the 4-byte LE `off` at
`size` and the 8-byte LE `pos` at `size + 4` and bumps `size` by 12. -/
def Index.write (i : Index) (off pos : Nat) : RustResult Unit × Index :=
  if i.mmap.length < i.size + 12 then
    (.err (.indexFull i.mmap.length (i.size + 12)), i)
  else
    (.ok (),
     { mmap := writeAt (writeAt i.mmap i.size (u32le off)) (i.size + 4) (u64le pos),
       size := i.size + 12 })

/-- `Index::read`: empty index is an error; `offset == -1` resolves to the
last row `size/12 - 1` (computed with wrapping `u64` subtraction, then
cast to `u32`), any other offset is cast to `u32`; the two mmap slices at
`row*12` panic when they fall outside the mmap. -/
def Index.read (i : Index) (offset : Int) : RustResult (Nat × Nat) :=
  if i.size = 0 then .err .indexEmpty
  else
    let out : Nat :=
      if offset = -1 then ((i.size / 12 + (2 ^ 64 - 1)) % 2 ^ 64) % 2 ^ 32
      else u32OfI64 offset
    let pos := out * 12
    if pos + 12 ≤ i.mmap.length then
      .ok (leDecode (slice i.mmap pos 4), leDecode (slice i.mmap (pos + 4) 8))
    else .panicked

/-- `Index::is_empty`. -/
def Index.isEmptyIdx (i : Index) : Bool := i.size == 0

/-- `Index::close` flushes the mmap and truncates the backing file to
`size`; the in-memory state is unchanged (the on-disk result is modelled
by `Log.closeDir`). -/
def Index.close (i : Index) : RustResult Unit × Index := (.ok (), i)

/-! ## Segment (`segment.rs`) -/

structure Segment where
  index : Index
  store : Store
  base_offset : Nat
  next_offset : Nat
  config : Config
  deriving DecidableEq

/-- `Segment::new`: opens (creating if absent) `<base>.store` and
`<base>.index`, then computes `next_offset` from the last index entry. -/
def Segment.new (storeFile indexFile : List Nat) (base_offset : Nat)
    (c : Config) : RustResult Segment :=
  let store := Store.new storeFile
  let index := Index.new indexFile c.segment.max_index_bytes
  if index.size = 0 then
    .ok { index, store, base_offset, next_offset := base_offset, config := c }
  else
    match index.read (-1) with
    | .ok (off, _) =>
        .ok { index, store, base_offset,
              next_offset := base_offset + off + 1, config := c }
    | .err e => .err e
    | .panicked => .panicked

/-- `Segment::append`: encodes the record *before* assigning
`record.offset = cur`, appends the bytes to the store, then writes the
index entry `(cur - base_offset, pos)`; only on index-write success is
`next_offset` bumped.  The mutated caller record and the mutated segment
are returned alongside the result (Rust mutates them in place even on the
error path: the store keeps the unindexed tail). -/
def Segment.append (s : Segment) (record : Record) :
    RustResult Nat × Record × Segment :=
  let b := record.encode
  let cur := s.next_offset
  let record := { record with offset := cur }
  let appended := s.store.append b
  let pos := appended.1.2
  let store' := appended.2
  match s.index.write (u64sub cur s.base_offset % 2 ^ 32) pos with
  | (.ok _, index') =>
      (.ok cur, record,
       { s with index := index', store := store', next_offset := s.next_offset + 1 })
  | (.err e, _) => (.err e, record, { s with store := store' })
  | (.panicked, _) => (.panicked, record, { s with store := store' })

/-- `Segment::read`: looks up `(offset - base_offset) as i64` in the
index, reads the store at the returned position, decodes the payload. -/
def Segment.read (s : Segment) (offset : Nat) : RustResult Record :=
  match s.index.read (i64OfU64 (u64sub offset s.base_offset)) with
  | .ok (_, pos) =>
      match s.store.read pos with
      | .ok payload =>
          match Record.decode payload with
          | some r => .ok r
          | none => .err .decodeErr
      | .err e => .err e
      | .panicked => .panicked
  | .err e => .err e
  | .panicked => .panicked

/-- `Segment::is_maxed`. -/
def Segment.is_maxed (s : Segment) : Bool :=
  s.config.segment.max_store_bytes ≤ s.store.size ||
    s.config.segment.max_index_bytes ≤ s.index.size

/-- `Segment::close`: closes store then index (no in-memory effect). -/
def Segment.close (s : Segment) : RustResult Unit × Segment := (.ok (), s)

/-- `Segment::remove`: closes, then deletes both files (file deletion is
reflected by the segment leaving `Log.segments`, which is the model of
the directory). -/
def Segment.remove (s : Segment) : RustResult Unit × Segment := (.ok (), s)

/-! ## Log (`log.rs`)

A directory is modelled as the list of its segment file *pairs*
`(base_offset, <base>.store content, <base>.index content)`; the two
files of a pair share the stem `base_offset`, which `Log::setup` parses
and dedups.  The files of a live `Log` are exactly the files of its
segments (every file ever created by a reachable `Log` belongs to a live
segment until `truncate` deletes it with the segment). -/

structure Log where
  config : Config
  segments : List Segment
  active_segment_idx : Option Nat
  deriving DecidableEq

/-- One directory entry: `(base_offset, store file bytes, index file bytes)`. -/
abbrev DirEntry := Nat × List Nat × List Nat

/-- Content of `<base>.store` in the directory (a missing file is created
empty by `OpenOptions::create(true)`). -/
def lookupStore (dir : List DirEntry) (base : Nat) : List Nat :=
  ((dir.find? (fun e => e.1 == base)).map (fun e => e.2.1)).getD []

/-- Content of `<base>.index` in the directory. -/
def lookupIndex (dir : List DirEntry) (base : Nat) : List Nat :=
  ((dir.find? (fun e => e.1 == base)).map (fun e => e.2.2)).getD []

/-- `Log::new_segment` performed for each recovered base offset during
`setup`, in order. -/
def setupSegs (dir : List DirEntry) (c : Config) :
    List Nat → RustResult (List Segment)
  | [] => .ok []
  | b :: bs =>
    match Segment.new (lookupStore dir b) (lookupIndex dir b) b c with
    | .ok s =>
        match setupSegs dir c bs with
        | .ok ss => .ok (s :: ss)
        | .err e => .err e
        | .panicked => .panicked
    | .err e => .err e
    | .panicked => .panicked

/-- `Log::new` + `Log::setup` on a directory: apply the config defaults,
collect the distinct base offsets from the file stems (one stem per
directory pair here; on disk each stem appears twice and `HashSet`
dedups), sort them ascending, open one segment per base offset in order,
and create a fresh segment at `initial_offset` when none was recovered.
`new_segment` leaves `active_segment_idx` at the last position. -/
def Log.openDir (dir : List DirEntry) (c : Config) : RustResult Log :=
  let ceff := c.effective
  let bases := List.insertionSort (· ≤ ·) (dir.map (fun e => e.1)).dedup
  match setupSegs dir ceff bases with
  | .ok segs =>
      if segs.isEmpty then
        match Segment.new [] [] ceff.segment.initial_offset ceff with
        | .ok s =>
            .ok { config := ceff, segments := [s], active_segment_idx := some 0 }
        | .err e => .err e
        | .panicked => .panicked
      else
        .ok { config := ceff, segments := segs,
              active_segment_idx := some (segs.length - 1) }
  | .err e => .err e
  | .panicked => .panicked

/-- `Log::new` on an *empty* directory (the setup path cannot fail
there); the default value is never reached. -/
def Log.mkEmpty (c : Config) : Log :=
  match Log.openDir [] c with
  | .ok l => l
  | _ => { config := c.effective, segments := [], active_segment_idx := none }

/-- `Log::append`: requires an active segment, delegates to it, and when
the segment reports `is_maxed` after the append, rotates by opening a
fresh segment at `offset + 1` (its two files do not yet exist in any
reachable state, hence empty contents) and making it active.  The
`expect` calls on a missing indexed segment or a failed rotation are
panics. -/
def Log.append (l : Log) (record : Record) : RustResult Nat × Record × Log :=
  match l.active_segment_idx with
  | none => (.err .noActiveSegment, record, l)
  | some i =>
    match l.segments.get? i with
    | none => (.panicked, record, l)
    | some s =>
      let step := s.append record
      let record' := step.2.1
      let s' := step.2.2
      let segs := l.segments.set i s'
      match step.1 with
      | .ok offset =>
          if s'.is_maxed then
            match Segment.new [] [] (offset + 1) l.config with
            | .ok ns =>
                (.ok offset, record',
                 { l with segments := segs ++ [ns],
                          active_segment_idx := some ((segs ++ [ns]).length - 1) })
            | _ => (.panicked, record', { l with segments := segs })
          else (.ok offset, record', { l with segments := segs })
      | .err e => (.err e, record', { l with segments := segs })
      | .panicked => (.panicked, record', { l with segments := segs })

/-- The `Log::read` segment-dispatch predicate
`s.base_offset <= off && s.next_offset > off`. -/
def coversb (off : Nat) (s : Segment) : Bool :=
  decide (s.base_offset ≤ off) && decide (off < s.next_offset)

/-- `Log::read`: linear scan for the first covering segment; "out of
range" otherwise. -/
def Log.read (l : Log) (off : Nat) : RustResult Record :=
  match l.segments.find? (coversb off) with
  | some s => s.read off
  | none => .err (.outOfRange off)

/-- `Log::lowest_offset`. -/
def Log.lowest_offset (l : Log) : RustResult Nat :=
  match l.segments.head? with
  | some s => .ok s.base_offset
  | none => .err .segsEmptyLow

/-- `Log::highest_offset` with its `next_offset == 0` special case. -/
def Log.highest_offset (l : Log) : RustResult Nat :=
  match l.segments.getLast? with
  | some s => if s.next_offset = 0 then .ok 0 else .ok (s.next_offset - 1)
  | none => .err .segsEmptyHigh

/-- `Log::close`: closes every segment in order (no in-memory effect;
the on-disk result is `Log.closeDir`). -/
def Log.close (l : Log) : RustResult Unit × Log := (.ok (), l)

/-- `Log::truncate`: `retain_mut` keeps exactly the segments with
`next_offset > lowest + 1`, calling `Segment::remove` (close + delete
both files) on each dropped one.  `active_segment_idx` is not updated. -/
def Log.truncate (l : Log) (lowest : Nat) : Log :=
  { l with segments := l.segments.filter (fun s => !decide (s.next_offset ≤ lowest + 1)) }

/-- The directory contents after `Log::close`: each store file holds its
flushed data; each index file is truncated to `size` bytes of its mmap. -/
def Log.closeDir (l : Log) : List DirEntry :=
  l.segments.map (fun s => (s.base_offset, s.store.data, s.index.mmap.take s.index.size))

/-- Append a list of records one after another (each call passes the next
caller-supplied record), collecting the per-append results. -/
def Log.appendAll (l : Log) : List Record → List (RustResult Nat) × Log
  | [] => ([], l)
  | r :: rs =>
    let step := l.append r
    let rest := Log.appendAll step.2.2 rs
    (step.1 :: rest.1, rest.2)

/-- All append results succeeded. -/
def allOk (rs : List (RustResult Nat)) : Bool :=
  rs.all fun r => match r with | .ok _ => true | _ => false

end LogServer

namespace LogServer

/-! ## The on-disk layout produced by a sequence of appends

`frames recs` is the store-file content after appending the encodings of
`recs`; `entriesAux j p recs` is the index content for those records when
the first one gets relative offset `j` and store position `p`. -/

/-- Width of the store frame holding `r`'s encoding. -/
def frameLen (r : Record) : Nat := 8 + r.encode.length

/-- The store frame holding `r`'s encoding. -/
def frame (r : Record) : List Nat := u64le r.encode.length ++ r.encode

/-- Store-file content for a record sequence. -/
def frames : List Record → List Nat
  | [] => []
  | r :: rs => frame r ++ frames rs

/-- Total store bytes of a record sequence. -/
def framesLen : List Record → Nat
  | [] => 0
  | r :: rs => frameLen r + framesLen rs

/-- Index-file content for a record sequence, starting at relative offset
`j` and store position `p`. -/
def entriesAux (j p : Nat) : List Record → List Nat
  | [] => []
  | r :: rs => u32le j ++ u64le p ++ entriesAux (j + 1) (p + frameLen r) rs

theorem leBytes_length : ∀ w n, (leBytes w n).length = w := by
  intro w
  induction w with
  | zero => intro n; rfl
  | succ w ih => intro n; simp [leBytes, ih]

theorem leDecode_leBytes : ∀ w n, leDecode (leBytes w n) = n % 256 ^ w := by
  intro w
  induction w with
  | zero => intro n; simp [leBytes, leDecode, Nat.mod_one]
  | succ w ih =>
      intro n
      rw [leBytes, leDecode, ih, pow_succ', Nat.mod_mul]

theorem leDecode_leBytes_of_lt {w n : Nat} (h : n < 256 ^ w) :
    leDecode (leBytes w n) = n := by
  rw [leDecode_leBytes, Nat.mod_eq_of_lt h]

theorem u32le_length (n : Nat) : (u32le n).length = 4 := leBytes_length 4 n

theorem u64le_length (n : Nat) : (u64le n).length = 8 := leBytes_length 8 n

theorem leDecode_u32le (n : Nat) : leDecode (u32le n) = n % 2 ^ 32 := by
  have : (256 : Nat) ^ 4 = 2 ^ 32 := by norm_num
  rw [u32le, leDecode_leBytes, this]

theorem leDecode_u64le (n : Nat) : leDecode (u64le n) = n % 2 ^ 64 := by
  have : (256 : Nat) ^ 8 = 2 ^ 64 := by norm_num
  rw [u64le, leDecode_leBytes, this]

theorem zeros_length (n : Nat) : (zeros n).length = n := List.length_replicate ..

theorem zeros_drop (k n : Nat) : (zeros n).drop k = zeros (n - k) :=
  List.drop_replicate ..

theorem zeros_take_zero (n k : Nat) : (zeros n).take k = zeros (min k n) :=
  List.take_replicate ..

theorem frameLen_def (r : Record) : frameLen r = 16 + r.value.length := by
  simp [frameLen, Record.encode, u64le_length]
  omega

theorem frame_length (r : Record) : (frame r).length = frameLen r := by
  simp [frame, frameLen, u64le_length]

theorem frames_append (a b : List Record) :
    frames (a ++ b) = frames a ++ frames b := by
  induction a with
  | nil => rfl
  | cons r rs ih => simp [frames, ih]

theorem framesLen_append (a b : List Record) :
    framesLen (a ++ b) = framesLen a + framesLen b := by
  induction a with
  | nil => simp [framesLen]
  | cons r rs ih => simp [framesLen, ih]; ring

theorem frames_length (rs : List Record) : (frames rs).length = framesLen rs := by
  induction rs with
  | nil => rfl
  | cons r rs ih => simp [frames, framesLen, frame_length, ih]

theorem entriesAux_length (rs : List Record) :
    ∀ j p, (entriesAux j p rs).length = 12 * rs.length := by
  induction rs with
  | nil => intro j p; rfl
  | cons r rs ih =>
      intro j p
      simp [entriesAux, ih, u32le_length, u64le_length]
      ring

theorem entriesAux_concat (rs : List Record) (r : Record) :
    ∀ j p, entriesAux j p (rs ++ [r]) =
      entriesAux j p rs ++ (u32le (j + rs.length) ++ u64le (p + framesLen rs)) := by
  induction rs with
  | nil => intro j p; simp [entriesAux, framesLen]
  | cons q qs ih =>
      intro j p
      simp only [List.cons_append, entriesAux, List.length_cons, framesLen, List.append_eq]
      rw [ih (j + 1) (p + frameLen q)]
      have h1 : j + 1 + qs.length = j + (qs.length + 1) := by omega
      have h2 : p + frameLen q + framesLen qs = p + (frameLen q + framesLen qs) := by omega
      rw [h1, h2]
      simp [List.append_assoc]

end LogServer

namespace LogServer

/-! ## Slice and write lemmas for mmap / store byte arithmetic -/

theorem drop_append_right (a b : List Nat) (k : Nat) :
    (a ++ b).drop (a.length + k) = b.drop k := by
  rw [List.drop_append_eq_append_drop]
  simp

theorem slice_append_left (a b : List Nat) (i n : Nat) (h : i + n ≤ a.length) :
    slice (a ++ b) i n = slice a i n := by
  have h1 : i - a.length = 0 := by omega
  have h2 : n - (a.drop i).length = 0 := by
    rw [List.length_drop]; omega
  rw [slice, slice, List.drop_append_eq_append_drop, h1, List.drop_zero,
    List.take_append_eq_append_take, h2, List.take_zero, List.append_nil]

theorem slice_append_right (a b : List Nat) (i n : Nat) :
    slice (a ++ b) (a.length + i) n = slice b i n := by
  rw [slice, slice, drop_append_right]

theorem slice_zero_take (l : List Nat) (n : Nat) : slice l 0 n = l.take n := by
  rw [slice, List.drop_zero]

theorem writeAt_append (E t v : List Nat) :
    writeAt (E ++ t) E.length v = E ++ v ++ t.drop v.length := by
  rw [writeAt, List.take_left, drop_append_right]

theorem writeAt_entry (E : List Nat) (m : Nat) (b4 b8 : List Nat)
    (h4 : b4.length = 4) (h8 : b8.length = 8) :
    writeAt (writeAt (E ++ zeros m) E.length b4) (E.length + 4) b8 =
      E ++ (b4 ++ (b8 ++ zeros (m - 12))) := by
  rw [writeAt_append, h4, zeros_drop]
  have hlen : E.length + 4 = (E ++ b4).length := by simp [h4]
  rw [List.append_assoc] at *
  rw [hlen, ← List.append_assoc E b4, writeAt_append, h8, zeros_drop]
  have : m - 4 - 8 = m - 12 := by omega
  simp [this, List.append_assoc]

/-! ## Reading back index entries and store frames -/

theorem entriesAux_slice_off (rs : List Record) :
    ∀ j p k, k < rs.length →
      slice (entriesAux j p rs) (12 * k) 4 = u32le (j + k) := by
  induction rs with
  | nil => intro j p k h; simp at h
  | cons r qs ih =>
      intro j p k h
      match k with
      | 0 =>
          simp only [entriesAux, Nat.mul_zero, slice_zero_take]
          rw [List.append_assoc, List.take_left' (u32le_length j), Nat.add_zero]
      | k + 1 =>
          have h12 : 12 * (k + 1) = (u32le j ++ u64le p).length + 12 * k := by
            simp [u32le_length, u64le_length]; ring
          rw [entriesAux, h12, slice_append_right,
            ih (j + 1) (p + frameLen r) k (by simpa using h)]
          congr 1
          omega

theorem entriesAux_slice_pos (rs : List Record) :
    ∀ j p k, k < rs.length →
      slice (entriesAux j p rs) (12 * k + 4) 8 =
        u64le (p + framesLen (rs.take k)) := by
  induction rs with
  | nil => intro j p k h; simp at h
  | cons r qs ih =>
      intro j p k h
      match k with
      | 0 =>
          simp only [entriesAux, Nat.mul_zero, Nat.zero_add, List.take_zero,
            framesLen, Nat.add_zero]
          have h4 : (u32le j).length + 0 = 4 := by simp [u32le_length]
          rw [List.append_assoc, show (4 : Nat) = (u32le j).length + 0 by omega,
            slice_append_right, slice_zero_take, List.take_left' (u64le_length p)]
      | k + 1 =>
          have h12 : 12 * (k + 1) + 4 = (u32le j ++ u64le p).length + (12 * k + 4) := by
            simp [u32le_length, u64le_length]; ring
          rw [entriesAux, h12, slice_append_right,
            ih (j + 1) (p + frameLen r) k (by simpa using h)]
          congr 1
          simp [List.take_cons, framesLen]
          omega

theorem framesLen_take_add (rs : List Record) :
    ∀ k (h : k < rs.length),
      framesLen (rs.take k) + frameLen (rs.get ⟨k, h⟩) ≤ framesLen rs := by
  induction rs with
  | nil => intro k h; simp at h
  | cons r qs ih =>
      intro k h
      match k with
      | 0 => simp [framesLen, List.get]
      | k + 1 =>
          have := ih k (by simpa using h)
          simp only [List.take_cons, framesLen, List.get]
          omega

theorem frames_slice_len (rs : List Record) :
    ∀ k (h : k < rs.length),
      slice (frames rs) (framesLen (rs.take k)) 8 =
        u64le ((rs.get ⟨k, h⟩).encode.length) := by
  induction rs with
  | nil => intro k h; simp at h
  | cons r qs ih =>
      intro k h
      match k with
      | 0 =>
          simp only [List.take_zero, framesLen, frames, frame, List.get]
          rw [slice_zero_take, List.append_assoc, List.take_left' (u64le_length _)]
      | k + 1 =>
          have hfl : framesLen ((r :: qs).take (k + 1)) =
              (frame r).length + framesLen (qs.take k) := by
            simp [List.take_cons, framesLen, frame_length]
          rw [hfl, frames, slice_append_right, ih k (by simpa using h)]
          rfl

theorem frames_slice_payload (rs : List Record) :
    ∀ k (h : k < rs.length),
      slice (frames rs) (framesLen (rs.take k) + 8) ((rs.get ⟨k, h⟩).encode.length) =
        (rs.get ⟨k, h⟩).encode := by
  induction rs with
  | nil => intro k h; simp at h
  | cons r qs ih =>
      intro k h
      match k with
      | 0 =>
          simp only [List.take_zero, framesLen, frames, frame, List.get, Nat.zero_add]
          rw [show (8 : Nat) = (u64le r.encode.length).length + 0 by
              simp [u64le_length], List.append_assoc, slice_append_right,
            slice_zero_take, List.take_left]
      | k + 1 =>
          have hq : k < qs.length := by simpa using h
          have hget : (r :: qs).get ⟨k + 1, h⟩ = qs.get ⟨k, hq⟩ := rfl
          have hfl : framesLen ((r :: qs).take (k + 1)) + 8 =
              (frame r).length + (framesLen (qs.take k) + 8) := by
            simp [List.take_cons, framesLen, frame_length]
            omega
          rw [hget, hfl, frames, slice_append_right, ih k hq]

end LogServer

namespace LogServer

/-! ## Cast lemmas -/

theorem leBytes_mod : ∀ w n, leBytes w (n % 256 ^ w) = leBytes w n := by
  intro w
  induction w with
  | zero => intro n; rfl
  | succ w ih =>
      intro n
      have hdvd : (256 : Nat) ∣ 256 ^ (w + 1) := dvd_pow_self 256 (Nat.succ_ne_zero w)
      have hd : n % 256 ^ (w + 1) % 256 = n % 256 := Nat.mod_mod_of_dvd n hdvd
      have tl : n % 256 ^ (w + 1) / 256 = n / 256 % 256 ^ w := by
        rw [pow_succ', Nat.mod_mul, Nat.add_mul_div_left _ _ (by norm_num : (0:Nat) < 256),
          Nat.div_eq_of_lt (Nat.mod_lt _ (by norm_num)), Nat.zero_add]
      rw [leBytes, leBytes, hd, tl, ih]

theorem u32le_mod (n : Nat) : u32le (n % 2 ^ 32) = u32le n := by
  have h : (2 : Nat) ^ 32 = 256 ^ 4 := by norm_num
  rw [u32le, u32le, h, leBytes_mod]

theorem u64le_mod (n : Nat) : u64le (n % 2 ^ 64) = u64le n := by
  have h : (2 : Nat) ^ 64 = 256 ^ 8 := by norm_num
  rw [u64le, u64le, h, leBytes_mod]

theorem u64sub_add_left (b k : Nat) : u64sub (b + k) b = k % 2 ^ 64 := by
  rw [u64sub, show b + k + 2 ^ 64 - b = k + 2 ^ 64 by omega, Nat.add_mod_right]

theorem u64sub_of_lt (b k : Nat) (h : k < 2 ^ 64) : u64sub (b + k) b = k := by
  rw [u64sub_add_left, Nat.mod_eq_of_lt h]

theorem u32OfI64_ofNat (k : Nat) : u32OfI64 (k : Int) = k % 2 ^ 32 := by
  rw [u32OfI64]
  rw [show ((k : Int) % 2 ^ 32) = ((k % 2 ^ 32 : Nat) : Int) by
    push_cast; rfl]
  exact Int.toNat_ofNat _

theorem i64OfU64_ofNat_ne_neg_one (k : Nat) (h : k < 2 ^ 63) :
    i64OfU64 k = (k : Int) ∧ (k : Int) ≠ -1 := by
  constructor
  · rw [i64OfU64, if_pos h]
  · intro hk
    omega

/-- `Record.decode` inverts `Record.encode` (the offset field survives
modulo `u64`). -/
theorem decode_encode (r : Record) :
    Record.decode r.encode = some { value := r.value, offset := r.offset % 2 ^ 64 } := by
  rw [Record.decode, Record.encode]
  have hlen : (u64le r.offset).length = 8 := u64le_length _
  rw [if_pos (by simp [hlen])]
  rw [List.drop_left' hlen, List.take_left' hlen, leDecode_u64le]

/-! ## The segment invariant

`SegInv c b recs s`: segment `s` (under effective config `c`) holds
exactly the appends `recs`, starting at base offset `b`, with the
store/index byte layout those appends produce. -/

def SegInv (c : Config) (b : Nat) (recs : List Record) (s : Segment) : Prop :=
  s.base_offset = b ∧
  s.next_offset = b + recs.length ∧
  s.index.size = 12 * recs.length ∧
  12 * recs.length ≤ c.segment.max_index_bytes ∧
  s.index.mmap =
    entriesAux 0 0 recs ++ zeros (c.segment.max_index_bytes - 12 * recs.length) ∧
  s.store.data = frames recs ∧
  s.store.size = framesLen recs ∧
  s.config = c ∧
  framesLen recs < 2 ^ 64

instance (c : Config) (b : Nat) (recs : List Record) (s : Segment) :
    Decidable (SegInv c b recs s) := by
  unfold SegInv
  infer_instance

theorem SegInv.mmap_length {c b recs s} (h : SegInv c b recs s) :
    s.index.mmap.length = c.segment.max_index_bytes := by
  obtain ⟨-, -, -, hroom, hmm, -⟩ := h
  rw [hmm]
  simp [entriesAux_length, zeros_length]
  omega

theorem framesLen_take_le (rs : List Record) (k : Nat) :
    framesLen (rs.take k) ≤ framesLen rs := by
  induction rs generalizing k with
  | nil => simp
  | cons r qs ih =>
      match k with
      | 0 => simp [framesLen]
      | k + 1 =>
          simp only [List.take_cons, framesLen]
          have := ih k
          omega

theorem frameLen_ge (r : Record) : 16 ≤ frameLen r := by
  rw [frameLen_def]; omega

/-- A fresh segment (`Segment::new` on empty files) satisfies the
invariant with no records. -/
theorem segment_new_empty (c : Config) (b : Nat) :
    Segment.new [] [] b c = .ok
      { index := { mmap := zeros c.segment.max_index_bytes, size := 0 },
        store := { data := [], size := 0 },
        base_offset := b, next_offset := b, config := c } := by
  rw [Segment.new]
  simp [Store.new, Index.new, zeros]

theorem segInv_empty (c : Config) (b : Nat) :
    SegInv c b []
      { index := { mmap := zeros c.segment.max_index_bytes, size := 0 },
        store := { data := [], size := 0 },
        base_offset := b, next_offset := b, config := c } := by
  refine ⟨rfl, by simp, rfl, by simp, ?_, rfl, rfl, rfl, by positivity⟩
  simp [entriesAux, zeros]

/-- `Index::read` at a valid in-range row of a segment built by appends. -/
theorem SegInv.index_read {c b recs s} (h : SegInv c b recs s)
    (hfit : c.segment.max_index_bytes ≤ 12 * 2 ^ 32)
    (k : Nat) (hk : k < recs.length) :
    s.index.read (k : Int) = .ok (k, framesLen (recs.take k)) := by
  obtain ⟨hb, hn, hsz, hroom, hmm, hsd, hss, hcfg, h64⟩ := h
  have hk32 : k < 2 ^ 32 := by omega
  have hlenE : (entriesAux 0 0 recs).length = 12 * recs.length :=
    entriesAux_length recs 0 0
  have hmmlen : s.index.mmap.length = c.segment.max_index_bytes := by
    rw [hmm]
    simp [hlenE, zeros_length]
    omega
  rw [Index.read]
  rw [if_neg (by omega : ¬ s.index.size = 0)]
  have hne : ((k : Int) = -1) = False := by
    simp only [eq_iff_iff, iff_false]
    intro hcontra
    omega
  simp only [hne, if_false, u32OfI64_ofNat, Nat.mod_eq_of_lt hk32]
  rw [if_pos (by omega : k * 12 + 12 ≤ s.index.mmap.length)]
  rw [hmm]
  have h1 : k * 12 + 4 ≤ (entriesAux 0 0 recs).length := by omega
  have h2 : k * 12 + 4 + 8 ≤ (entriesAux 0 0 recs).length := by omega
  rw [show k * 12 = 12 * k by ring] at *
  rw [slice_append_left _ _ _ _ (by omega), slice_append_left _ _ _ _ (by omega)]
  rw [entriesAux_slice_off recs 0 0 k hk, entriesAux_slice_pos recs 0 0 k hk]
  rw [leDecode_u32le, leDecode_u64le, Nat.zero_add, Nat.zero_add,
    Nat.mod_eq_of_lt hk32,
    Nat.mod_eq_of_lt (lt_of_le_of_lt (framesLen_take_le recs k) h64)]

/-- `Store::read` of the `k`-th frame of a store built by appends. -/
theorem store_read_frame (rs : List Record) (h64 : framesLen rs < 2 ^ 64)
    (st : Store) (hdata : st.data = frames rs) (k : Nat) (hk : k < rs.length) :
    st.read (framesLen (rs.take k)) = .ok ((rs.get ⟨k, hk⟩).encode) := by
  have htake := framesLen_take_add rs k hk
  have hge := frameLen_ge (rs.get ⟨k, hk⟩)
  have henc : (rs.get ⟨k, hk⟩).encode.length + 8 = frameLen (rs.get ⟨k, hk⟩) := by
    rw [frameLen]; omega
  rw [Store.read, hdata, frames_length]
  rw [if_pos (by omega)]
  simp only [frames_slice_len rs k hk, leDecode_u64le]
  have henclt : (rs.get ⟨k, hk⟩).encode.length < 2 ^ 64 := by omega
  rw [Nat.mod_eq_of_lt henclt]
  rw [if_pos (by omega)]
  rw [frames_slice_payload rs k hk]

/-- `Segment::read` of an in-range offset of a segment built by appends. -/
theorem SegInv.seg_read {c b recs s} (h : SegInv c b recs s)
    (hfit : c.segment.max_index_bytes ≤ 12 * 2 ^ 32)
    (off : Nat) (h1 : b ≤ off) (h2 : off < b + recs.length) :
    ∃ r0, recs.get? (off - b) = some r0 ∧
      s.read off = .ok { value := r0.value, offset := r0.offset % 2 ^ 64 } := by
  have hk : off - b < recs.length := by omega
  have hk32 : off - b < 2 ^ 32 := by
    obtain ⟨-, -, -, hroom, -⟩ := h
    omega
  refine ⟨recs.get ⟨off - b, hk⟩, by rw [List.get?_eq_get hk], ?_⟩
  have hidx := h.index_read hfit (off - b) hk
  have h64 : framesLen recs < 2 ^ 64 := h.2.2.2.2.2.2.2.2
  have hsd : s.store.data = frames recs := h.2.2.2.2.2.1
  have hb : s.base_offset = b := h.1
  have hsub : u64sub off b = off - b := by
    have hx := u64sub_of_lt b (off - b) (by omega)
    rwa [show b + (off - b) = off by omega] at hx
  obtain ⟨hi64, -⟩ := i64OfU64_ofNat_ne_neg_one (off - b) (by omega)
  have hstore := store_read_frame recs h64 s.store hsd (off - b) hk
  have hdec := decode_encode (recs.get ⟨off - b, hk⟩)
  simp only [Segment.read, hb, hsub, hi64, hidx, hstore, hdec]

end LogServer

namespace LogServer

/-- `Segment::append` on a segment built by appends, with room in the
index: succeeds, assigns `next_offset`, mutates the caller's record, and
extends the layout by one record. -/
theorem SegInv.append_ok {c b recs s} (h : SegInv c b recs s) (r : Record)
    (hroom : 12 * recs.length + 12 ≤ c.segment.max_index_bytes)
    (h64 : framesLen recs + frameLen r < 2 ^ 64) :
    (s.append r).1 = .ok (b + recs.length) ∧
    (s.append r).2.1 = { r with offset := b + recs.length } ∧
    SegInv c b (recs ++ [r]) (s.append r).2.2 := by
  have hmml := h.mmap_length
  obtain ⟨hb, hn, hsz, hroom0, hmm, hsd, hss, hcfg, h64s⟩ := h
  have hE : (entriesAux 0 0 recs).length = 12 * recs.length := entriesAux_length recs 0 0
  have harg : u64sub s.next_offset s.base_offset % 2 ^ 32 = recs.length % 2 ^ 32 := by
    rw [hn, hb, u64sub_add_left,
      Nat.mod_mod_of_dvd _ (by norm_num : (2 : Nat) ^ 32 ∣ 2 ^ 64)]
  have hwrite : s.index.write (u64sub s.next_offset s.base_offset % 2 ^ 32) s.store.size =
      (.ok (), { mmap := entriesAux 0 0 (recs ++ [r]) ++
                   zeros (c.segment.max_index_bytes - 12 * (recs ++ [r]).length),
                 size := s.index.size + 12 }) := by
    rw [Index.write, if_neg (by omega)]
    simp only [Prod.mk.injEq, Index.mk.injEq, true_and, and_true]
    rw [harg, u32le_mod, hss, hmm, hsz,
      show 12 * recs.length = (entriesAux 0 0 recs).length from hE.symm,
      writeAt_entry _ _ _ _ (u32le_length _) (u64le_length _),
      entriesAux_concat, Nat.zero_add, Nat.zero_add]
    have hz : c.segment.max_index_bytes - (entriesAux 0 0 recs).length - 12
        = c.segment.max_index_bytes - 12 * (recs ++ [r]).length := by
      rw [hE]
      simp
      omega
    rw [hz]
    simp [List.append_assoc]
  have happ : s.append r = (.ok s.next_offset, { r with offset := s.next_offset },
      { s with
          index := { mmap := entriesAux 0 0 (recs ++ [r]) ++
                       zeros (c.segment.max_index_bytes - 12 * (recs ++ [r]).length),
                     size := s.index.size + 12 },
          store := { data := s.store.data ++ u64le r.encode.length ++ r.encode,
                     size := s.store.size + (8 + r.encode.length) },
          next_offset := s.next_offset + 1 }) := by
    simp only [Segment.append, Store.append, hwrite]
  rw [happ, hn]
  refine ⟨rfl, rfl, hb, ?_, ?_, ?_, rfl, ?_, ?_, hcfg, ?_⟩
  · simp only [List.length_append, List.length_cons, List.length_nil]
    omega
  · simp only [List.length_append, List.length_cons, List.length_nil, hsz]
    omega
  · simp only [List.length_append, List.length_cons, List.length_nil]
    omega
  · rw [hsd, frames_append]
    simp [frames, frame, List.append_assoc]
  · rw [hss, framesLen_append]
    simp only [framesLen, frameLen]
    omega
  · rw [framesLen_append]
    simp only [framesLen]
    omega

end LogServer

namespace LogServer

/-- `Index::read(-1)` (last entry) on a non-empty segment built by
appends. -/
theorem SegInv.index_read_last {c b recs s} (h : SegInv c b recs s)
    (hfit : c.segment.max_index_bytes ≤ 12 * 2 ^ 32)
    (hne : recs.length ≠ 0) :
    s.index.read (-1) =
      .ok (recs.length - 1, framesLen (recs.take (recs.length - 1))) := by
  obtain ⟨hb, hn, hsz, hroom, hmm, hsd, hss, hcfg, h64⟩ := h
  have hlen1 : 1 ≤ recs.length := Nat.pos_of_ne_zero hne
  have hlt32 : recs.length - 1 < 2 ^ 32 := by omega
  have hE := entriesAux_length recs 0 0
  have hmmlen : s.index.mmap.length = c.segment.max_index_bytes := by
    rw [hmm]
    simp [hE, zeros_length]
    omega
  rw [Index.read, if_neg (by omega)]
  have hrow : ((s.index.size / 12 + (2 ^ 64 - 1)) % 2 ^ 64) % 2 ^ 32
      = recs.length - 1 := by
    rw [hsz, Nat.mul_div_cancel_left _ (by norm_num : (0 : Nat) < 12),
      show recs.length + (2 ^ 64 - 1) = recs.length - 1 + 2 ^ 64 by omega,
      Nat.add_mod_right,
      Nat.mod_eq_of_lt (show recs.length - 1 < 2 ^ 64 by omega),
      Nat.mod_eq_of_lt hlt32]
  simp only [if_pos rfl, hrow, ite_true]
  rw [if_pos (by omega : (recs.length - 1) * 12 + 12 ≤ s.index.mmap.length)]
  rw [hmm, show (recs.length - 1) * 12 = 12 * (recs.length - 1) by ring]
  rw [slice_append_left _ _ _ _ (by omega), slice_append_left _ _ _ _ (by omega)]
  rw [entriesAux_slice_off recs 0 0 _ (by omega),
    entriesAux_slice_pos recs 0 0 _ (by omega)]
  rw [leDecode_u32le, leDecode_u64le, Nat.zero_add, Nat.zero_add,
    Nat.mod_eq_of_lt hlt32,
    Nat.mod_eq_of_lt (lt_of_le_of_lt (framesLen_take_le recs _) h64)]

/-- Re-opening a segment from its closed files (`<base>.store` holds the
flushed store data, `<base>.index` is truncated to `size`) rebuilds the
identical segment. -/
theorem SegInv.reopen_segment {c b recs s} (h : SegInv c b recs s)
    (hfit : c.segment.max_index_bytes ≤ 12 * 2 ^ 32) :
    Segment.new s.store.data (s.index.mmap.take s.index.size) b c = .ok s := by
  have hlast := fun hne => SegInv.index_read_last h hfit hne
  obtain ⟨sidx, sst, sb, sn, scfg⟩ := s
  obtain ⟨hb, hn, hsz, hroom, hmm, hsd, hss, hcfg, h64⟩ := h
  simp only at hb hn hsz hmm hsd hss hcfg hlast
  have hE := entriesAux_length recs 0 0
  have hfile : sidx.mmap.take sidx.size = entriesAux 0 0 recs := by
    rw [hmm, hsz, List.take_left' hE]
  have hle : (entriesAux 0 0 recs).length ≤ c.segment.max_index_bytes := by
    rw [hE]; omega
  have hidx : Index.new (entriesAux 0 0 recs) c.segment.max_index_bytes = sidx := by
    rw [Index.new, List.take_of_length_le hle, hE, ← hmm, ← hsz]
  have hst : Store.new sst.data = sst := by
    rw [Store.new, hsd, frames_length, ← hss, ← hsd]
  simp only [Segment.new, hfile, hidx, hst]
  by_cases h0 : recs.length = 0
  · rw [if_pos (by rw [hsz, h0])]
    simp only [RustResult.ok.injEq, Segment.mk.injEq]
    exact ⟨trivial, trivial, hb.symm, by omega, hcfg.symm⟩
  · rw [if_neg (by rw [hsz]; omega)]
    simp only [hlast h0]
    simp only [RustResult.ok.injEq, Segment.mk.injEq]
    exact ⟨trivial, trivial, hb.symm, by omega, hcfg.symm⟩

end LogServer

namespace LogServer

/-! ## The log invariant -/

/-- Total number of records in a per-segment partition. -/
def totalLen (parts : List (List Record)) : Nat := (parts.map List.length).sum

theorem totalLen_nil : totalLen [] = 0 := rfl

theorem totalLen_cons (p : List Record) (ps : List (List Record)) :
    totalLen (p :: ps) = p.length + totalLen ps := by
  simp [totalLen]

theorem totalLen_append (a b : List (List Record)) :
    totalLen (a ++ b) = totalLen a + totalLen b := by
  simp [totalLen]

theorem flatten_length_eq_totalLen (parts : List (List Record)) :
    parts.flatten.length = totalLen parts := by
  induction parts with
  | nil => rfl
  | cons p ps ih => simp [totalLen_cons, ih]

/-- The chain of segments of a log: segment `i` holds partition entry
`i`, bases are contiguous starting at `b`. -/
inductive SegsInv (c : Config) : Nat → List (List Record) → List Segment → Prop where
  | nil (b : Nat) : SegsInv c b [] []
  | cons {b : Nat} {recs : List Record} {s : Segment}
      {parts : List (List Record)} {ss : List Segment} :
      SegInv c b recs s → SegsInv c (b + recs.length) parts ss →
      SegsInv c b (recs :: parts) (s :: ss)

theorem SegsInv.length_eq {c b parts ss} (h : SegsInv c b parts ss) :
    ss.length = parts.length := by
  induction h with
  | nil => rfl
  | cons _ _ ih => simp [ih]

theorem SegsInv.snoc {c b parts ss recs s} (h : SegsInv c b parts ss)
    (hs : SegInv c (b + totalLen parts) recs s) :
    SegsInv c b (parts ++ [recs]) (ss ++ [s]) := by
  induction h with
  | nil b' =>
      simpa [totalLen_nil] using SegsInv.cons (by simp [totalLen_nil] at hs; exact hs) (SegsInv.nil _)
  | cons h1 h2 ih =>
      rename_i b' recs' s' parts' ss'
      refine SegsInv.cons h1 (ih ?_)
      rwa [totalLen_cons, ← Nat.add_assoc] at hs

theorem SegsInv.snoc_inv {c b parts ss} (h : SegsInv c b parts ss)
    (hne : parts ≠ []) :
    ∃ parts0 recs ss0 s, parts = parts0 ++ [recs] ∧ ss = ss0 ++ [s] ∧
      SegsInv c b parts0 ss0 ∧ SegInv c (b + totalLen parts0) recs s := by
  induction h with
  | nil => exact absurd rfl hne
  | cons h1 h2 ih =>
      rename_i b' recs' s' parts' ss'
      by_cases h0 : parts' = []
      · subst h0
        cases h2
        exact ⟨[], recs', [], s', rfl, rfl, SegsInv.nil _, by simpa [totalLen_nil] using h1⟩
      · obtain ⟨p0, recs, s0, sl, hp, hs, hinv, hseg⟩ := ih h0
        refine ⟨recs' :: p0, recs, s' :: s0, sl, by rw [hp]; rfl, by rw [hs]; rfl,
          SegsInv.cons h1 hinv, ?_⟩
        rw [totalLen_cons, ← Nat.add_assoc]
        exact hseg


theorem SegsInv.base_lb {c b parts ss} (h : SegsInv c b parts ss) :
    ∀ s ∈ ss, b ≤ s.base_offset := by
  induction h with
  | nil => intro s hs; simp at hs
  | cons h1 h2 ih =>
      intro s hs
      rcases List.mem_cons.mp hs with h | h
      · subst h; exact le_of_eq h1.1.symm
      · exact le_trans (Nat.le_add_right _ _) (ih s h)

/-- `LogInv c parts l`: the log's segments realize the partition `parts`
of all appended records; `c` is the (already effective) config. -/
def LogInv (c : Config) (parts : List (List Record)) (l : Log) : Prop :=
  l.config = c ∧
  parts ≠ [] ∧
  SegsInv c c.segment.initial_offset parts l.segments ∧
  l.active_segment_idx = some (l.segments.length - 1) ∧
  (∀ p ∈ parts.dropLast, p ≠ []) ∧
  12 * (parts.getLast?.getD []).length < c.segment.max_index_bytes

/-- The fresh segment opened on two empty files. -/
def freshSeg (c : Config) (b : Nat) : Segment :=
  { index := { mmap := zeros c.segment.max_index_bytes, size := 0 },
    store := { data := [], size := 0 },
    base_offset := b, next_offset := b, config := c }

theorem segment_new_empty_fresh (c : Config) (b : Nat) :
    Segment.new [] [] b c = .ok (freshSeg c b) := segment_new_empty c b

theorem segInv_fresh (c : Config) (b : Nat) : SegInv c b [] (freshSeg c b) :=
  segInv_empty c b

theorem effective_max_index_pos (c : Config) :
    0 < c.effective.segment.max_index_bytes := by
  rw [Config.effective]
  dsimp only
  split <;> omega

theorem effective_idem (c : Config) : c.effective.effective = c.effective := by
  simp only [Config.effective, Config.mk.injEq, SegmentConfig.mk.injEq]
  refine ⟨?_, ?_, trivial⟩ <;> split_ifs <;> omega

theorem mkEmpty_eq (c0 : Config) :
    Log.mkEmpty c0 =
      { config := c0.effective,
        segments := [freshSeg c0.effective c0.effective.segment.initial_offset],
        active_segment_idx := some 0 } := by
  rw [Log.mkEmpty, Log.openDir]
  simp [setupSegs, segment_new_empty_fresh]

theorem logInv_mkEmpty (c0 : Config) :
    LogInv c0.effective [[]] (Log.mkEmpty c0) := by
  rw [mkEmpty_eq]
  refine ⟨rfl, by simp, ?_, rfl, by simp, ?_⟩
  · exact SegsInv.cons (segInv_fresh _ _) (by simpa using SegsInv.nil _)
  · simpa using effective_max_index_pos c0

end LogServer

namespace LogServer

theorem set_concat {α : Type} (ss0 : List α) (s sNew : α) :
    (ss0 ++ [s]).set ss0.length sNew = ss0 ++ [sNew] := by
  induction ss0 with
  | nil => rfl
  | cons a as ih => simp only [List.cons_append, List.length_cons, List.set_cons_succ, ih]

theorem get?_concat {α : Type} (ss0 : List α) (s : α) :
    (ss0 ++ [s]).get? ss0.length = some s := by
  rw [List.get?_eq_getElem?]
  exact List.getElem?_concat_length ss0 s

/-- `Segment::append` without room in the index surfaces IndexFull. -/
theorem SegInv.append_fail {c b recs s} (h : SegInv c b recs s) (r : Record)
    (hroom : c.segment.max_index_bytes < 12 * recs.length + 12) :
    (s.append r).1 = .err (.indexFull c.segment.max_index_bytes (12 * recs.length + 12)) := by
  have hmml := h.mmap_length
  obtain ⟨hb, hn, hsz, hroom0, hmm, hsd, hss, hcfg, h64⟩ := h
  have hwr : s.index.write (u64sub s.next_offset s.base_offset % 2 ^ 32) s.store.size =
      (.err (.indexFull c.segment.max_index_bytes (12 * recs.length + 12)), s.index) := by
    rw [Index.write, if_pos (by omega), hmml, hsz]
  simp only [Segment.append, Store.append, hwr]

/-- One successful `Log::append` step preserves the log invariant and
returns the next dense offset. -/
theorem LogInv.append_step {c parts l} (H : LogInv c parts l) (r : Record)
    (h64 : framesLen parts.flatten + frameLen r < 2 ^ 64)
    {n : Nat} (hok : (l.append r).1 = .ok n) :
    n = c.segment.initial_offset + totalLen parts ∧
    ∃ parts', LogInv c parts' (l.append r).2.2 ∧
      parts'.flatten = parts.flatten ++ [r] ∧
      totalLen parts' = totalLen parts + 1 := by
  obtain ⟨hcfg, hpne, hsegs, hact, hseal, hroom⟩ := H
  obtain ⟨p0, lastRecs, ss0, lastSeg, hp, hs, hinv0, hseg⟩ := hsegs.snoc_inv hpne
  have hflat : parts.flatten = p0.flatten ++ lastRecs := by
    rw [hp]; simp
  have h64s : framesLen lastRecs + frameLen r < 2 ^ 64 := by
    have := framesLen_append p0.flatten lastRecs
    rw [hflat, this] at h64
    omega
  have hlen : l.segments.length = ss0.length + 1 := by rw [hs]; simp
  have hget : l.segments.get? (l.segments.length - 1) = some lastSeg := by
    rw [hs]
    have hx : (ss0 ++ [lastSeg]).length - 1 = ss0.length := by simp
    rw [hx]
    exact get?_concat ss0 lastSeg
  by_cases hr : 12 * lastRecs.length + 12 ≤ c.segment.max_index_bytes
  · -- index has room: the segment append succeeds
    obtain ⟨hres, hrec, hseg'⟩ := hseg.append_ok r hr h64s
    set base := c.segment.initial_offset + totalLen p0 with hbase
    set s' := (lastSeg.append r).2.2 with hs'
    have hsetEq : l.segments.set (l.segments.length - 1) s' = ss0 ++ [s'] := by
      rw [hs]
      have hx : (ss0 ++ [lastSeg]).length - 1 = ss0.length := by simp
      rw [hx, set_concat]
    have htl : totalLen parts = totalLen p0 + lastRecs.length := by
      rw [hp, totalLen_append, totalLen_cons, totalLen_nil]
      omega
    by_cases hmax : s'.is_maxed
    · -- rotation
      have hrot : Segment.new [] [] (base + lastRecs.length + 1) l.config =
          .ok (freshSeg c (base + lastRecs.length + 1)) := by
        rw [hcfg]; exact segment_new_empty_fresh c _
      have happEq : l.append r =
          (.ok (base + lastRecs.length), (lastSeg.append r).2.1,
           { config := l.config, segments := (ss0 ++ [s']) ++ [freshSeg c (base + lastRecs.length + 1)],
             active_segment_idx := some (((ss0 ++ [s']) ++ [freshSeg c (base + lastRecs.length + 1)]).length - 1) }) := by
        simp only [Log.append, hact, hget, hres, hmax, eq_self_iff_true, if_true,
          hsetEq, hrot]
      rw [happEq] at hok ⊢
      simp only [RustResult.ok.injEq] at hok
      refine ⟨by omega, (p0 ++ [lastRecs ++ [r]]) ++ [[]], ⟨hcfg, by simp, ?_, ?_, ?_, ?_⟩, ?_, ?_⟩
      · refine SegsInv.snoc (hinv0.snoc (by rwa [← hbase])) ?_
        have : c.segment.initial_offset + totalLen (p0 ++ [lastRecs ++ [r]]) =
            base + lastRecs.length + 1 := by
          rw [totalLen_append, totalLen_cons, totalLen_nil]
          simp [hbase]
          omega
        rw [this]
        exact segInv_fresh c _
      · simp
      · intro p hp2
        rw [List.dropLast_concat] at hp2
        rcases List.mem_append.mp hp2 with hmem | hmem
        · refine hseal p ?_
          rw [hp, List.dropLast_concat]
          exact hmem
        · simp at hmem
          subst hmem
          simp
      · simp only [List.getLast?_concat, Option.getD_some, List.length_nil]
        omega
      · rw [hflat]; simp
      · rw [htl]
        simp [totalLen_append, totalLen_cons, totalLen_nil]
        omega
    · -- no rotation
      have hmaxf : s'.is_maxed = false := by
        revert hmax
        cases s'.is_maxed <;> simp
      have happEq : l.append r =
          (.ok (base + lastRecs.length), (lastSeg.append r).2.1,
           { config := l.config, segments := ss0 ++ [s'],
             active_segment_idx := l.active_segment_idx }) := by
        simp only [Log.append, hact, hget, hres, hmaxf, Bool.false_eq_true,
          if_false, hsetEq]
      rw [happEq] at hok ⊢
      simp only [RustResult.ok.injEq] at hok
      have hs'cfg : s'.config = c := hseg'.2.2.2.2.2.2.2.1
      have hs'size : s'.index.size = 12 * (lastRecs ++ [r]).length := hseg'.2.2.1
      have hnomax : 12 * (lastRecs.length + 1) < c.segment.max_index_bytes := by
        rw [Segment.is_maxed, hs'cfg] at hmaxf
        simp only [Bool.or_eq_false_iff, decide_eq_false_iff_not, not_le] at hmaxf
        have h2 := hmaxf.2
        rw [hs'size] at h2
        simp only [List.length_append, List.length_cons, List.length_nil] at h2
        omega
      refine ⟨by omega, p0 ++ [lastRecs ++ [r]], ⟨hcfg, by simp, ?_, ?_, ?_, ?_⟩, ?_, ?_⟩
      · exact hinv0.snoc (by rwa [← hbase])
      · rw [hact, hlen]
        simp
      · intro p hp2
        rw [List.dropLast_concat] at hp2
        refine hseal p ?_
        rw [hp, List.dropLast_concat]
        exact hp2
      · simp only [List.getLast?_concat, Option.getD_some, List.length_append,
          List.length_cons, List.length_nil]
        omega
      · rw [hflat]; simp
      · rw [htl]
        simp [totalLen_append, totalLen_cons, totalLen_nil]
        omega
  · -- no room: append would fail, contradicting the ok result
    have hfail := hseg.append_fail r (by omega)
    have : (l.append r).1 = .err (.indexFull c.segment.max_index_bytes (12 * lastRecs.length + 12)) := by
      simp only [Log.append, hact, hget, hfail]
    rw [this] at hok
    exact absurd hok (by simp)

end LogServer

namespace LogServer

/-- Invariant propagation over a whole successful append sequence, with
the dense offsets returned. -/
theorem appendAll_inv {c : Config} (rs : List Record) :
    ∀ parts l, LogInv c parts l →
      framesLen parts.flatten + framesLen rs < 2 ^ 64 →
      allOk (l.appendAll rs).1 = true →
      ∃ parts', LogInv c parts' (l.appendAll rs).2 ∧
        parts'.flatten = parts.flatten ++ rs ∧
        (l.appendAll rs).1 = (List.range rs.length).map
          (fun i => .ok (c.segment.initial_offset + totalLen parts + i)) := by
  induction rs with
  | nil =>
      intro parts l H h64 hok
      exact ⟨parts, H, by simp, by simp [Log.appendAll]⟩
  | cons r rest ih =>
      intro parts l H h64 hok
      simp only [Log.appendAll, allOk, List.all_cons, Bool.and_eq_true] at hok
      obtain ⟨hok1, hokRest⟩ := hok
      obtain ⟨n, hn⟩ : ∃ n, (l.append r).1 = .ok n := by
        cases hcase : (l.append r).1 with
        | ok m => exact ⟨m, rfl⟩
        | err e => rw [hcase] at hok1; simp at hok1
        | panicked => rw [hcase] at hok1; simp at hok1
      have h64step : framesLen parts.flatten + frameLen r < 2 ^ 64 := by
        simp only [framesLen] at h64
        omega
      obtain ⟨hnval, parts1, H1, hflat1, htl1⟩ := H.append_step r h64step hn
      have h64rest : framesLen parts1.flatten + framesLen rest < 2 ^ 64 := by
        rw [hflat1, framesLen_append]
        simp only [framesLen] at h64 ⊢
        omega
      obtain ⟨parts2, H2, hflat2, hres2⟩ :=
        ih parts1 (l.append r).2.2 H1 h64rest (by simpa [allOk] using hokRest)
      refine ⟨parts2, by simpa [Log.appendAll] using H2, ?_, ?_⟩
      · rw [hflat2, hflat1]
        simp
      · have hshape : (l.appendAll (r :: rest)).1
            = (l.append r).1 :: ((l.append r).2.2.appendAll rest).1 := by
          simp [Log.appendAll]
        rw [hshape, hres2, hn, hnval, htl1]
        simp only [List.length_cons]
        rw [List.range_succ_eq_map]
        simp only [List.map_cons, List.map_map, Nat.add_zero]
        congr 1
        have hfun : (fun i => (RustResult.ok
              (c.segment.initial_offset + (totalLen parts + 1) + i) : RustResult Nat))
            = ((fun i => (RustResult.ok
              (c.segment.initial_offset + totalLen parts + i) : RustResult Nat)) ∘ Nat.succ) := by
          funext i
          simp only [Function.comp_apply, RustResult.ok.injEq]
          omega
        rw [hfun]

end LogServer

namespace LogServer

/-- The segment-dispatch of `Log::read` as a function of the segments
list. -/
def readSegs (ss : List Segment) (off : Nat) : RustResult Record :=
  match ss.find? (coversb off) with
  | some s => s.read off
  | none => .err (.outOfRange off)

theorem Log.read_eq_readSegs (l : Log) (off : Nat) :
    l.read off = readSegs l.segments off := rfl

/-- Reading any in-range offset of an invariant-satisfying segment chain
returns the originally appended record's payload. -/
theorem SegsInv.readSegs_ok {c b parts ss} (H : SegsInv c b parts ss)
    (hfit : c.segment.max_index_bytes ≤ 12 * 2 ^ 32) :
    ∀ k, b ≤ k → k < b + totalLen parts →
    ∃ r0, parts.flatten.get? (k - b) = some r0 ∧
      readSegs ss k = .ok { value := r0.value, offset := r0.offset % 2 ^ 64 } := by
  induction H with
  | nil b' =>
      intro k hb hk
      rw [totalLen_nil] at hk
      omega
  | cons h1 h2 ih =>
      rename_i b' recs s parts' ss'
      intro k hb hk
      by_cases hcover : k < b' + recs.length
      · have hcb : coversb k s = true := by
          simp only [coversb, h1.1, h1.2.1, Bool.and_eq_true, decide_eq_true_eq]
          exact ⟨hb, hcover⟩
        obtain ⟨r0, hr0, hread⟩ := h1.seg_read hfit k hb hcover
        refine ⟨r0, ?_, ?_⟩
        · rw [List.flatten_cons, List.get?_eq_getElem?,
            List.getElem?_append_left (by omega : k - b' < recs.length),
            ← List.get?_eq_getElem?]
          exact hr0
        · rw [readSegs, List.find?_cons_of_pos _ hcb]
          exact hread
      · have hcb : ¬ coversb k s = true := by
          simp only [coversb, h1.1, h1.2.1, Bool.and_eq_true, decide_eq_true_eq, not_and]
          intro _
          omega
        have hk' : k < b' + recs.length + totalLen parts' := by
          rw [totalLen_cons] at hk
          omega
        obtain ⟨r0, hr0, hread⟩ := ih k (by omega) hk'
        refine ⟨r0, ?_, ?_⟩
        · rw [List.flatten_cons, List.get?_eq_getElem?,
            List.getElem?_append_right (by omega : recs.length ≤ k - b'),
            ← List.get?_eq_getElem?,
            show k - b' - recs.length = k - (b' + recs.length) by omega]
          exact hr0
        · rw [readSegs, List.find?_cons_of_neg _ hcb]
          exact hread

theorem LogInv.read_ok {c parts l} (H : LogInv c parts l)
    (hfit : c.segment.max_index_bytes ≤ 12 * 2 ^ 32) (k : Nat)
    (hb : c.segment.initial_offset ≤ k)
    (hk : k < c.segment.initial_offset + totalLen parts) :
    ∃ r0, parts.flatten.get? (k - c.segment.initial_offset) = some r0 ∧
      l.read k = .ok { value := r0.value, offset := r0.offset % 2 ^ 64 } := by
  rw [Log.read_eq_readSegs]
  exact H.2.2.1.readSegs_ok hfit k hb hk

theorem SegsInv.head_base {c b parts ss} (h : SegsInv c b parts ss)
    (hne : parts ≠ []) : ∃ s tl, ss = s :: tl ∧ s.base_offset = b := by
  cases h with
  | nil => exact absurd rfl hne
  | cons h1 h2 => exact ⟨_, _, rfl, h1.1⟩

theorem LogInv.lowest_offset_eq {c parts l} (H : LogInv c parts l) :
    l.lowest_offset = .ok c.segment.initial_offset := by
  obtain ⟨-, hpne, hsegs, -⟩ := H
  obtain ⟨s, tl, hss, hbase⟩ := hsegs.head_base hpne
  rw [Log.lowest_offset, hss]
  simp [hbase]

theorem LogInv.getLast_next {c parts l} (H : LogInv c parts l) :
    ∃ s, l.segments.getLast? = some s ∧
      s.next_offset = c.segment.initial_offset + totalLen parts := by
  obtain ⟨-, hpne, hsegs, -⟩ := H
  obtain ⟨p0, lastRecs, ss0, lastSeg, hp, hs, hinv0, hseg⟩ := hsegs.snoc_inv hpne
  refine ⟨lastSeg, by rw [hs]; exact List.getLast?_concat _, ?_⟩
  rw [hseg.2.1, hp, totalLen_append, totalLen_cons, totalLen_nil]
  omega

theorem LogInv.highest_offset_eq {c parts l} (H : LogInv c parts l)
    (hne : totalLen parts ≠ 0) :
    l.highest_offset = .ok (c.segment.initial_offset + totalLen parts - 1) := by
  obtain ⟨s, hlast, hnext⟩ := H.getLast_next
  have hh : l.highest_offset
      = if s.next_offset = 0 then .ok 0 else .ok (s.next_offset - 1) := by
    rw [Log.highest_offset, hlast]
  rw [hh, hnext, if_neg (by omega)]

end LogServer

namespace LogServer

/-- Directory contents written by closing a list of segments. -/
def closeDirSegs (ss : List Segment) : List DirEntry :=
  ss.map fun s => (s.base_offset, s.store.data, s.index.mmap.take s.index.size)

theorem Log.closeDir_eq (l : Log) : l.closeDir = closeDirSegs l.segments := rfl

theorem seal_tail {recs : List Record} {parts' : List (List Record)}
    (hseal : ∀ p ∈ (recs :: parts').dropLast, p ≠ []) :
    ∀ p ∈ parts'.dropLast, p ≠ [] := by
  intro p hp
  refine hseal p ?_
  cases parts' with
  | nil => simp at hp
  | cons q qs => exact List.mem_cons_of_mem _ hp

theorem seal_head {recs : List Record} {parts' : List (List Record)}
    (hseal : ∀ p ∈ (recs :: parts').dropLast, p ≠ []) (hne : parts' ≠ []) :
    recs ≠ [] := by
  refine hseal recs ?_
  cases parts' with
  | nil => exact absurd rfl hne
  | cons q qs => exact List.mem_cons_self _ _

theorem SegsInv.parts_nil_iff {c b parts ss} (h : SegsInv c b parts ss) :
    parts = [] ↔ ss = [] := by
  have hl := h.length_eq
  constructor
  · intro hx
    apply List.length_eq_zero.mp
    rw [hl, hx]
    rfl
  · intro hx
    apply List.length_eq_zero.mp
    rw [← hl, hx]
    rfl

theorem SegsInv.bases_sorted {c b parts ss} (h : SegsInv c b parts ss)
    (hseal : ∀ p ∈ parts.dropLast, p ≠ []) :
    (ss.map (fun s => s.base_offset)).Sorted (· < ·) := by
  induction h with
  | nil => simp
  | cons h1 h2 ih =>
      rename_i b' recs s parts' ss'
      rw [List.map_cons, List.sorted_cons]
      refine ⟨?_, ih (seal_tail hseal)⟩
      intro x hx
      obtain ⟨s', hs', hxeq⟩ := List.mem_map.mp hx
      subst hxeq
      have hlb := h2.base_lb s' hs'
      have hp' : parts' ≠ [] := by
        intro hnil
        rw [h2.parts_nil_iff.mp hnil] at hs'
        simp at hs'
      have hne : recs ≠ [] := seal_head hseal hp'
      have hlen : 1 ≤ recs.length := List.length_pos.mpr hne
      rw [h1.1]
      omega

/-- `Log::setup` over the closed directory re-opens exactly the original
segments, for any prefix of directory entries whose stems are not bases
of these segments. -/
theorem setupSegs_reopen {c : Config}
    (hfit : c.segment.max_index_bytes ≤ 12 * 2 ^ 32) :
    ∀ {b parts ss}, SegsInv c b parts ss →
    (∀ p ∈ parts.dropLast, p ≠ []) →
    ∀ dirPre : List DirEntry,
      (∀ e ∈ dirPre, ∀ s ∈ ss, e.1 ≠ s.base_offset) →
      setupSegs (dirPre ++ closeDirSegs ss) c (ss.map (fun s => s.base_offset)) =
        .ok ss := by
  intro b parts ss H
  induction H with
  | nil =>
      intro hseal dirPre hdis
      simp [setupSegs, closeDirSegs]
  | cons h1 h2 ih =>
      rename_i b' recs s parts' ss'
      intro hseal dirPre hdis
      have hfind : (dirPre ++ closeDirSegs (s :: ss')).find?
          (fun e => e.1 == s.base_offset)
          = some (s.base_offset, s.store.data, s.index.mmap.take s.index.size) := by
        rw [List.find?_append]
        have h1n : dirPre.find? (fun e => e.1 == s.base_offset) = none := by
          rw [List.find?_eq_none]
          intro e he
          simp only [beq_iff_eq]
          exact hdis e he s (List.mem_cons_self _ _)
        rw [h1n, closeDirSegs, List.map_cons, List.find?_cons_of_pos _ (by simp)]
        rfl
      have hlookS : lookupStore (dirPre ++ closeDirSegs (s :: ss')) s.base_offset
          = s.store.data := by
        rw [lookupStore, hfind]
        rfl
      have hlookI : lookupIndex (dirPre ++ closeDirSegs (s :: ss')) s.base_offset
          = s.index.mmap.take s.index.size := by
        rw [lookupIndex, hfind]
        rfl
      have hnew : Segment.new
          (lookupStore (dirPre ++ closeDirSegs (s :: ss')) s.base_offset)
          (lookupIndex (dirPre ++ closeDirSegs (s :: ss')) s.base_offset)
          s.base_offset c = .ok s := by
        rw [hlookS, hlookI, h1.1]
        exact h1.reopen_segment hfit
      have hdirShift : dirPre ++ closeDirSegs (s :: ss')
          = (dirPre ++ [(s.base_offset, s.store.data,
              s.index.mmap.take s.index.size)]) ++ closeDirSegs ss' := by
        rw [closeDirSegs, List.map_cons, List.append_assoc]
        rfl
      rw [List.map_cons, setupSegs, hnew]
      have hrec : setupSegs (dirPre ++ closeDirSegs (s :: ss')) c
          (ss'.map (fun s => s.base_offset)) = .ok ss' := by
        rw [hdirShift]
        refine ih (seal_tail hseal) _ ?_
        intro e he s' hs'
        rcases List.mem_append.mp he with hmem | hmem
        · exact hdis e hmem s' (List.mem_cons_of_mem _ hs')
        · simp only [List.mem_singleton] at hmem
          subst hmem
          simp only
          have hlb := h2.base_lb s' hs'
          have hp' : parts' ≠ [] := by
            intro hnil
            rw [h2.parts_nil_iff.mp hnil] at hs'
            simp at hs'
          have hlen : 1 ≤ recs.length := List.length_pos.mpr (seal_head hseal hp')
          rw [h1.1]
          omega
      rw [hrec]

end LogServer

namespace LogServer

/-- Re-opening the closed directory of an invariant-satisfying log with
an equivalent config rebuilds the identical log. -/
theorem LogInv.reopen_log {c parts l} (H : LogInv c parts l)
    (hfit : c.segment.max_index_bytes ≤ 12 * 2 ^ 32)
    (c0 : Config) (heff : c0.effective = c) :
    Log.openDir l.closeDir c0 = .ok l := by
  obtain ⟨hcfg, hpne, hsegs, hact, hseal, hroom⟩ := H
  have hsorted := hsegs.bases_sorted hseal
  have hnodup : (l.segments.map fun s => s.base_offset).Nodup :=
    List.Pairwise.imp (fun h => ne_of_lt h) hsorted
  have hkeys : l.closeDir.map (fun e => e.1)
      = l.segments.map fun s => s.base_offset := by
    rw [Log.closeDir_eq, closeDirSegs, List.map_map]
    rfl
  have hdedup : (l.closeDir.map (fun e => e.1)).dedup
      = l.segments.map fun s => s.base_offset := by
    rw [hkeys]
    exact List.dedup_eq_self.mpr hnodup
  have hsortEq : List.insertionSort (· ≤ ·) (l.segments.map fun s => s.base_offset)
      = l.segments.map fun s => s.base_offset :=
    List.Sorted.insertionSort_eq (List.Pairwise.imp le_of_lt hsorted)
  have hsetup : setupSegs l.closeDir c (l.segments.map fun s => s.base_offset)
      = .ok l.segments := by
    have hx := setupSegs_reopen hfit hsegs hseal [] (by simp)
    simpa [Log.closeDir_eq] using hx
  have hne : l.segments.isEmpty = false := by
    rcases hsegs.head_base hpne with ⟨s0, tl, hss, -⟩
    rw [hss]
    rfl
  simp only [Log.openDir, heff, hdedup, hsortEq, hsetup, hne, Bool.false_eq_true,
    if_false]
  rw [← hcfg, ← hact]

end LogServer

namespace LogServer

/-! ## Truncation -/

/-- Reading through the retained segments gives the same result as
through all segments, whenever some retained segment covers the offset. -/
theorem SegsInv.readSegs_filter {c b parts ss} (H : SegsInv c b parts ss)
    (q : Segment → Bool) (k : Nat)
    (hcov : ∃ s ∈ ss.filter q, coversb k s = true) :
    readSegs (ss.filter q) k = readSegs ss k := by
  induction H with
  | nil => rfl
  | cons h1 h2 ih =>
      rename_i b' recs s parts' ss'
      by_cases hq : q s
      · rw [List.filter_cons_of_pos hq]
        by_cases hcb : coversb k s = true
        · rw [readSegs, readSegs, List.find?_cons_of_pos _ hcb,
            List.find?_cons_of_pos _ hcb]
        · rw [readSegs, readSegs, List.find?_cons_of_neg _ hcb,
            List.find?_cons_of_neg _ hcb]
          refine ih ?_
          obtain ⟨w, hw, hwc⟩ := hcov
          rw [List.filter_cons_of_pos hq] at hw
          rcases List.mem_cons.mp hw with hweq | hwmem
          · subst hweq; exact absurd hwc hcb
          · exact ⟨w, hwmem, hwc⟩
      · rw [List.filter_cons_of_neg hq] at hcov ⊢
        have hscov : ¬ coversb k s = true := by
          intro hx
          obtain ⟨s', hs', hcb'⟩ := hcov
          have hs'mem : s' ∈ ss' := List.mem_of_mem_filter hs'
          have hlb := h2.base_lb s' hs'mem
          simp only [coversb, Bool.and_eq_true, decide_eq_true_eq] at hcb' hx
          rw [h1.2.1] at hx
          omega
        have hrhs : readSegs (s :: ss') k = readSegs ss' k := by
          rw [readSegs, List.find?_cons_of_neg _ hscov]
          rfl
        rw [hrhs]
        exact ih hcov

/-! ## Rotation never surfaces IndexFull for 12-aligned caps (C4) -/

theorem writeAt_length (l v : List Nat) (i : Nat) (h : i + v.length ≤ l.length) :
    (writeAt l i v).length = l.length := by
  rw [writeAt]
  simp only [List.length_append, List.length_take, List.length_drop]
  omega

/-- `Segment::append` on any segment whose index has room: result and
bookkeeping fields, without assuming the full layout invariant. -/
theorem Segment.append_sizes (s : Segment) (r : Record)
    (hroom : s.index.size + 12 ≤ s.index.mmap.length) :
    (s.append r).1 = .ok s.next_offset ∧
    (s.append r).2.2.config = s.config ∧
    (s.append r).2.2.index.size = s.index.size + 12 ∧
    (s.append r).2.2.index.mmap.length = s.index.mmap.length := by
  have hwr : s.index.write (u64sub s.next_offset s.base_offset % 2 ^ 32) s.store.size =
      (.ok (),
       { mmap := (writeAt (writeAt s.index.mmap s.index.size (u32le (u64sub s.next_offset s.base_offset % 2 ^ 32))) (s.index.size + 4) (u64le s.store.size)),
         size := s.index.size + 12 }) := by
    rw [Index.write, if_neg (by omega)]
  have hinner : (writeAt s.index.mmap s.index.size
      (u32le (u64sub s.next_offset s.base_offset % 2 ^ 32))).length
      = s.index.mmap.length :=
    writeAt_length _ _ _ (by rw [u32le_length]; omega)
  refine ⟨?_, ?_, ?_, ?_⟩
  · simp only [Segment.append, Store.append, hwr]
  · simp only [Segment.append, Store.append, hwr]
  · simp only [Segment.append, Store.append, hwr]
  · simp only [Segment.append, Store.append, hwr]
    rw [writeAt_length _ _ _ (by rw [u64le_length, hinner]; omega), hinner]

def RotInv (c : Config) (l : Log) : Prop :=
  l.config = c ∧
  l.active_segment_idx = some (l.segments.length - 1) ∧
  ∃ ss0 s, l.segments = ss0 ++ [s] ∧ s.config = c ∧
    s.index.mmap.length = c.segment.max_index_bytes ∧
    12 ∣ s.index.size ∧ s.index.size < c.segment.max_index_bytes

theorem RotInv.step {c l} (H : RotInv c l)
    (hdvd : 12 ∣ c.segment.max_index_bytes) (r : Record) :
    (∃ n, (l.append r).1 = .ok n) ∧ RotInv c (l.append r).2.2 := by
  obtain ⟨hcfg, hact, ss0, s, hss, hscfg, hmml, hdvdsz, hlt⟩ := H
  have hroom : s.index.size + 12 ≤ s.index.mmap.length := by
    rw [hmml]
    obtain ⟨k, hk⟩ := hdvdsz
    obtain ⟨m, hm⟩ := hdvd
    omega
  obtain ⟨hres, hscfg', hsize', hmml'⟩ := Segment.append_sizes s r hroom
  have hget : l.segments.get? (l.segments.length - 1) = some s := by
    rw [hss]
    have hx : (ss0 ++ [s]).length - 1 = ss0.length := by simp
    rw [hx]
    exact get?_concat ss0 s
  have hsetEq : l.segments.set (l.segments.length - 1) ((s.append r).2.2)
      = ss0 ++ [(s.append r).2.2] := by
    rw [hss]
    have hx : (ss0 ++ [s]).length - 1 = ss0.length := by simp
    rw [hx, set_concat]
  by_cases hmax : (s.append r).2.2.is_maxed
  · have hrot : Segment.new [] [] (s.next_offset + 1) l.config
        = .ok (freshSeg c (s.next_offset + 1)) := by
      rw [hcfg]
      exact segment_new_empty_fresh c _
    have happEq : l.append r = (.ok s.next_offset, (s.append r).2.1,
        { config := l.config,
          segments := (ss0 ++ [(s.append r).2.2]) ++ [freshSeg c (s.next_offset + 1)],
          active_segment_idx :=
            some (((ss0 ++ [(s.append r).2.2]) ++ [freshSeg c (s.next_offset + 1)]).length - 1) }) := by
      simp only [Log.append, hact, hget, hres, hmax, eq_self_iff_true, if_true,
        hsetEq, hrot]
    rw [happEq]
    refine ⟨⟨s.next_offset, rfl⟩, hcfg, rfl,
      ss0 ++ [(s.append r).2.2], freshSeg c (s.next_offset + 1), rfl, rfl,
      by simp [freshSeg, zeros_length], by simp [freshSeg], ?_⟩
    simp only [freshSeg]
    omega
  · have hmaxf : (s.append r).2.2.is_maxed = false := by
      revert hmax
      cases (s.append r).2.2.is_maxed <;> simp
    have happEq : l.append r = (.ok s.next_offset, (s.append r).2.1,
        { config := l.config, segments := ss0 ++ [(s.append r).2.2],
          active_segment_idx := l.active_segment_idx }) := by
      simp only [Log.append, hact, hget, hres, hmaxf, Bool.false_eq_true,
        if_false, hsetEq]
    rw [happEq]
    refine ⟨⟨s.next_offset, rfl⟩, hcfg, ?_,
      ss0, (s.append r).2.2, rfl, by rw [hscfg', hscfg], by rw [hmml', hmml],
      by rw [hsize']; exact Dvd.dvd.add hdvdsz (by norm_num), ?_⟩
    · rw [hact, hss]
      simp
    · rw [Segment.is_maxed, hscfg', hscfg] at hmaxf
      simp only [Bool.or_eq_false_iff, decide_eq_false_iff_not, not_le] at hmaxf
      rw [hsize']
      rw [hsize'] at hmaxf
      exact hmaxf.2

theorem rotInv_mkEmpty (c0 : Config) : RotInv c0.effective (Log.mkEmpty c0) := by
  rw [mkEmpty_eq]
  exact ⟨rfl, rfl, [], _, rfl, rfl, by simp [freshSeg, zeros_length],
    by simp [freshSeg], by simpa [freshSeg] using effective_max_index_pos c0⟩

theorem RotInv.appendAll_ok {c l} (H : RotInv c l)
    (hdvd : 12 ∣ c.segment.max_index_bytes) (rs : List Record) :
    allOk (l.appendAll rs).1 = true ∧ RotInv c (l.appendAll rs).2 := by
  induction rs generalizing l with
  | nil => exact ⟨rfl, H⟩
  | cons r rest ih =>
      obtain ⟨⟨n, hn⟩, H'⟩ := H.step hdvd r
      obtain ⟨hall, H''⟩ := ih H'
      refine ⟨?_, by simpa [Log.appendAll] using H''⟩
      simp only [Log.appendAll, allOk, List.all_cons, Bool.and_eq_true, hn]
      exact ⟨trivial, by simpa [allOk] using hall⟩

/-! ## Error-message lemmas (C5) -/

theorem hasSubstr_append_right (a b n : List Char)
    (h : hasSubstr b n = true) : hasSubstr (a ++ b) n = true := by
  induction a with
  | nil => simpa using h
  | cons x xs ih => simp [hasSubstr, ih]

theorem outOfRange_msg_has (off : Nat) :
    hasSubstr (Err.msg (.outOfRange off)) ("out of range".toList) = true := by
  rw [Err.msg]
  exact hasSubstr_append_right _ _ _ (by decide)

theorem Index.read_err_only_empty (i : Index) (z : Int) (e : Err)
    (h : i.read z = .err e) : e = .indexEmpty := by
  simp only [Index.read] at h
  split_ifs at h with h1 h2 h3 h4
  all_goals simp_all

theorem Store.read_err_only_eof (st : Store) (pos : Nat) (e : Err)
    (h : st.read pos = .err e) : e = .storeEof := by
  simp only [Store.read] at h
  split_ifs at h <;> simp_all

theorem Segment.read_err_kinds (s : Segment) (off : Nat) (e : Err)
    (h : s.read off = .err e) :
    e = .indexEmpty ∨ e = .storeEof ∨ e = .decodeErr := by
  rw [Segment.read] at h
  cases hidx : s.index.read (i64OfU64 (u64sub off s.base_offset)) with
  | ok v =>
      obtain ⟨o, pos⟩ := v
      rw [hidx] at h
      dsimp only at h
      cases hst : s.store.read pos with
      | ok payload =>
          rw [hst] at h
          dsimp only at h
          cases hdec : Record.decode payload with
          | some rec => rw [hdec] at h; simp at h
          | none =>
              rw [hdec] at h
              simp only [RustResult.err.injEq] at h
              exact Or.inr (Or.inr h.symm)
      | err e2 =>
          rw [hst] at h
          simp only [RustResult.err.injEq] at h
          subst h
          exact Or.inr (Or.inl (Store.read_err_only_eof s.store pos e2 hst))
      | panicked => rw [hst] at h; simp at h
  | err e2 =>
      rw [hidx] at h
      simp only [RustResult.err.injEq] at h
      subst h
      exact Or.inl (Index.read_err_only_empty s.index _ e2 hidx)
  | panicked => rw [hidx] at h; simp at h

end LogServer

namespace LogServer

/-! ## Point lemmas about `writeAt` on arbitrary mmaps (C8) -/

theorem slice_append_right' (a b : List Nat) (i n : Nat) (h : i = a.length) :
    slice (a ++ b) i n = slice b 0 n := by
  subst h
  simpa using slice_append_right a b 0 n

theorem writeAt_take_le (l v : List Nat) (i j : Nat) (hj : j ≤ i)
    (hi : i ≤ l.length) : (writeAt l i v).take j = l.take j := by
  have hlen : (l.take i).length = i := by
    rw [List.length_take]
    omega
  rw [writeAt, List.append_assoc, List.take_append_eq_append_take]
  rw [hlen, show j - i = 0 by omega, List.take_zero, List.append_nil,
    List.take_take, Nat.min_eq_left hj]

theorem writeAt_slice_self (l v : List Nat) (i : Nat) (hi : i ≤ l.length) :
    slice (writeAt l i v) i v.length = v := by
  have hlen : (l.take i).length = i := by
    rw [List.length_take]
    omega
  rw [writeAt, List.append_assoc, slice_append_right' _ _ _ _ hlen.symm,
    slice_zero_take, List.take_left]

theorem slice_take (l : List Nat) (i j n : Nat) (h : j + n ≤ i) :
    slice (l.take i) j n = slice l j n := by
  rw [slice, slice, List.drop_take]
  rw [List.take_take, Nat.min_eq_left (by omega)]

theorem writeAt_slice_before (l v : List Nat) (i j n : Nat) (h : j + n ≤ i)
    (hi : i ≤ l.length) : slice (writeAt l i v) j n = slice l j n := by
  rw [writeAt, List.append_assoc, slice_append_left _ _ _ _ (by
    rw [List.length_take]; omega), slice_take _ _ _ _ h]

end LogServer

namespace LogServer

/-- Claim C7: `Store::append(p)` captures `pos` equal to the store's size
before the call, writes an 8-byte little-endian length followed by the
entire payload, increments `size` by `8 + p.len()`, and returns
`(8 + p.len(), pos)`. -/
theorem store_append_c7 (st : Store) (p : List Nat) :
    (st.append p).1.2 = st.size ∧
    (st.append p).1.1 = 8 + p.length ∧
    (st.append p).2.data = st.data ++ u64le p.length ++ p ∧
    (u64le p.length).length = 8 ∧
    (st.append p).2.size = st.size + (8 + p.length) :=
  ⟨rfl, rfl, rfl, u64le_length _, rfl⟩

/-- Claim C8: `Index::write(off, pos)` fails exactly when
`size + 12 > mmap.len()`; on success it writes `off` little-endian at
bytes `[size..size+4]` and `pos` little-endian at `[size+4..size+12]` and
increments `size` by 12; on failure the index (its `size` and all
previously written bytes) is unchanged. -/
theorem index_write_c8 (i : Index) (off pos : Nat) :
    ((∃ e, (i.write off pos).1 = .err e) ↔ i.size + 12 > i.mmap.length) ∧
    (i.size + 12 > i.mmap.length → (i.write off pos).2 = i) ∧
    (i.size + 12 ≤ i.mmap.length →
      (i.write off pos).1 = .ok () ∧
      (i.write off pos).2.size = i.size + 12 ∧
      slice (i.write off pos).2.mmap i.size 4 = u32le off ∧
      slice (i.write off pos).2.mmap (i.size + 4) 8 = u64le pos ∧
      (i.write off pos).2.mmap.take i.size = i.mmap.take i.size ∧
      (i.write off pos).2.mmap.length = i.mmap.length) := by
  by_cases hroom : i.size + 12 ≤ i.mmap.length
  · have hwr : i.write off pos =
        (.ok (), { mmap := (writeAt (writeAt i.mmap i.size (u32le off)) (i.size + 4) (u64le pos)),
                   size := i.size + 12 }) := by
      rw [Index.write, if_neg (by omega)]
    have hinnerlen : (writeAt i.mmap i.size (u32le off)).length = i.mmap.length :=
      writeAt_length _ _ _ (by rw [u32le_length]; omega)
    refine ⟨?_, ?_, ?_⟩
    · rw [hwr]
      constructor
      · rintro ⟨e, he⟩
        simp at he
      · intro hx
        omega
    · intro hx
      omega
    · intro hx
      rw [hwr]
      refine ⟨rfl, rfl, ?_, ?_, ?_, ?_⟩
      · dsimp only
        rw [writeAt_slice_before (writeAt i.mmap i.size (u32le off)) (u64le pos)
            (i.size + 4) i.size 4 (by omega) (by rw [hinnerlen]; omega)]
        rw [show (4 : Nat) = (u32le off).length from (u32le_length off).symm]
        exact writeAt_slice_self i.mmap (u32le off) i.size (by omega)
      · dsimp only
        rw [show (8 : Nat) = (u64le pos).length from (u64le_length pos).symm]
        exact writeAt_slice_self _ (u64le pos) _ (by rw [hinnerlen]; omega)
      · dsimp only
        rw [writeAt_take_le _ _ _ _ (by omega) (by rw [hinnerlen]; omega),
          writeAt_take_le _ _ _ _ (by omega) (by omega)]
      · dsimp only
        rw [writeAt_length _ _ _ (by rw [u64le_length, hinnerlen]; omega), hinnerlen]
  · have hwr : i.write off pos =
        (.err (.indexFull i.mmap.length (i.size + 12)), i) := by
      rw [Index.write, if_pos (by omega)]
    refine ⟨?_, fun _ => by rw [hwr], fun hx => absurd hx (by omega)⟩
    rw [hwr]
    exact ⟨fun _ => by omega, fun _ => ⟨_, rfl⟩⟩

/-- Witness for C8 at a concrete index: success at a 24-byte mmap with
one entry written, failure when the mmap lacks room. -/
theorem index_write_c8_witness :
    ((12 : Nat) + 12 ≤ (zeros 24).length) ∧
    (Index.write { mmap := zeros 24, size := 12 } 7 19).1 = .ok () ∧
    slice (Index.write { mmap := zeros 24, size := 12 } 7 19).2.mmap 12 4 = u32le 7 ∧
    ((⟨zeros 24, 13⟩ : Index).size + 12 > (zeros 24).length →
      (Index.write ⟨zeros 24, 13⟩ 7 19).2 = ⟨zeros 24, 13⟩) := by
  refine ⟨by decide, ?_, ?_, ?_⟩
  · exact ((index_write_c8 { mmap := zeros 24, size := 12 } 7 19).2.2 (by decide)).1
  · exact ((index_write_c8 { mmap := zeros 24, size := 12 } 7 19).2.2 (by decide)).2.2.1
  · exact fun h => (index_write_c8 (⟨zeros 24, 13⟩ : Index) 7 19).2.1 h

end LogServer

namespace LogServer

/-- Claim C1 (counterexample): on an empty directory with a valid config
whose `initial_offset` is 0 and zero appends, `lowest_offset` and
`highest_offset` are both `0` (the `next_offset == 0` special case), so
`[lowest_offset, highest_offset]` contains `0` — yet `read(0)` fails, so
the claim is false as stated for N = 0. -/
theorem log_roundtrip_c1_counterexample :
    (Log.mkEmpty ⟨⟨64, 36, 0⟩⟩).lowest_offset = .ok 0 ∧
    (Log.mkEmpty ⟨⟨64, 36, 0⟩⟩).highest_offset = .ok 0 ∧
    (Log.mkEmpty ⟨⟨64, 36, 0⟩⟩).read 0 = .err (.outOfRange 0) := by
  decide

/-- Claim C1 (amended to N ≥ 1): for every Log opened on an empty
directory with any valid config (a config whose effective
`max_index_bytes` keeps relative offsets within `u32`), after any
sequence of N ≥ 1 successful appends, the i-th append was assigned offset
`initial_offset + i`, and `read(k)` succeeds and returns the payload
written by the append assigned offset `k`, for every `k` in
`[lowest_offset, highest_offset]`. -/
theorem log_roundtrip_c1 (c0 : Config) (rs : List Record)
    (hfit : c0.effective.segment.max_index_bytes ≤ 12 * 2 ^ 32)
    (h64 : framesLen rs < 2 ^ 64)
    (hne : rs ≠ [])
    (hok : allOk ((Log.mkEmpty c0).appendAll rs).1 = true) :
    ((Log.mkEmpty c0).appendAll rs).1 = (List.range rs.length).map
      (fun i => .ok (c0.effective.segment.initial_offset + i)) ∧
    ((Log.mkEmpty c0).appendAll rs).2.lowest_offset
      = .ok c0.effective.segment.initial_offset ∧
    ((Log.mkEmpty c0).appendAll rs).2.highest_offset
      = .ok (c0.effective.segment.initial_offset + rs.length - 1) ∧
    ∀ k, c0.effective.segment.initial_offset ≤ k →
      k < c0.effective.segment.initial_offset + rs.length →
      ∃ r0, rs.get? (k - c0.effective.segment.initial_offset) = some r0 ∧
        ((Log.mkEmpty c0).appendAll rs).2.read k
          = .ok { value := r0.value, offset := r0.offset % 2 ^ 64 } := by
  have H0 := logInv_mkEmpty c0
  have hbud : framesLen ([[]] : List (List Record)).flatten + framesLen rs < 2 ^ 64 := by
    simpa [framesLen] using h64
  obtain ⟨parts', H, hflat, hres⟩ := appendAll_inv rs [[]] (Log.mkEmpty c0) H0 hbud hok
  have hflat' : parts'.flatten = rs := by simpa using hflat
  have htl : totalLen parts' = rs.length := by
    rw [← flatten_length_eq_totalLen, hflat']
  refine ⟨?_, H.lowest_offset_eq, ?_, ?_⟩
  · rw [hres]
    simp [totalLen]
  · rw [H.highest_offset_eq (by rw [htl]; have := List.length_pos.mpr hne; omega), htl]
  · intro k hb hk
    obtain ⟨r0, hr0, hread⟩ := H.read_ok hfit k hb (by rw [htl]; omega)
    exact ⟨r0, by rwa [hflat'] at hr0, hread⟩

/-- Witness for the amended C1 at a concrete config and two appends. -/
theorem log_roundtrip_c1_witness :
    ∃ r0, ([⟨[1,2,3],0⟩, ⟨[4,5],0⟩] : List Record).get? 1 = some r0 ∧
      ((Log.mkEmpty ⟨⟨64, 36, 5⟩⟩).appendAll
        [⟨[1,2,3],0⟩, ⟨[4,5],0⟩]).2.read 6
        = .ok { value := r0.value, offset := r0.offset % 2 ^ 64 } :=
  (log_roundtrip_c1 ⟨⟨64, 36, 5⟩⟩ [⟨[1,2,3],0⟩, ⟨[4,5],0⟩]
    (by decide) (by decide) (by decide) (by decide)).2.2.2 6 (by decide) (by decide)

/-- Claim C2: closing a Log built by any sequence of successful appends
and re-opening its directory with the same config yields a Log with the
same `lowest_offset`, the same `highest_offset`, and the same `read(k)`
for every `k`. -/
theorem log_reopen_c2 (c0 : Config) (rs : List Record)
    (hfit : c0.effective.segment.max_index_bytes ≤ 12 * 2 ^ 32)
    (h64 : framesLen rs < 2 ^ 64)
    (hok : allOk ((Log.mkEmpty c0).appendAll rs).1 = true) :
    ((Log.mkEmpty c0).appendAll rs).2.close
      = (.ok (), ((Log.mkEmpty c0).appendAll rs).2) ∧
    ∃ l2, Log.openDir (((Log.mkEmpty c0).appendAll rs).2.closeDir) c0 = .ok l2 ∧
      l2.lowest_offset = ((Log.mkEmpty c0).appendAll rs).2.lowest_offset ∧
      l2.highest_offset = ((Log.mkEmpty c0).appendAll rs).2.highest_offset ∧
      ∀ k, l2.read k = ((Log.mkEmpty c0).appendAll rs).2.read k := by
  have H0 := logInv_mkEmpty c0
  have hbud : framesLen ([[]] : List (List Record)).flatten + framesLen rs < 2 ^ 64 := by
    simpa [framesLen] using h64
  obtain ⟨parts', H, -, -⟩ := appendAll_inv rs [[]] (Log.mkEmpty c0) H0 hbud hok
  exact ⟨rfl, _, H.reopen_log hfit c0 rfl, rfl, rfl, fun k => rfl⟩

/-- Witness for C2 at a concrete config and one append. -/
theorem log_reopen_c2_witness :
    ∃ l2, Log.openDir (((Log.mkEmpty ⟨⟨64, 36, 0⟩⟩).appendAll
        [⟨[7,8],0⟩]).2.closeDir) ⟨⟨64, 36, 0⟩⟩ = .ok l2 ∧
      l2.lowest_offset = ((Log.mkEmpty ⟨⟨64, 36, 0⟩⟩).appendAll
        [⟨[7,8],0⟩]).2.lowest_offset ∧
      l2.highest_offset = ((Log.mkEmpty ⟨⟨64, 36, 0⟩⟩).appendAll
        [⟨[7,8],0⟩]).2.highest_offset ∧
      ∀ k, l2.read k = ((Log.mkEmpty ⟨⟨64, 36, 0⟩⟩).appendAll
        [⟨[7,8],0⟩]).2.read k :=
  (log_reopen_c2 ⟨⟨64, 36, 0⟩⟩ [⟨[7,8],0⟩]
    (by decide) (by decide) (by decide)).2

/-- Claim C4 (counterexample): with `max_index_bytes = 30` (not a
multiple of 12) and room in the store, the third append reaches
`Index::write` with `size = 24` and `24 + 12 > 30`, so `Log::append`
returns the IndexFull error to the caller — rotation never triggered
because `is_maxed` only fires at `size ≥ 30`. -/
theorem log_indexfull_c4_counterexample :
    ((Log.mkEmpty ⟨⟨1024, 30, 0⟩⟩).appendAll [⟨[], 0⟩, ⟨[], 0⟩, ⟨[], 0⟩]).1
      = [.ok 0, .ok 1, .err (.indexFull 30 36)] := by
  decide

/-- Claim C4 (amended): when the effective `max_index_bytes` is a
multiple of 12, every `Log::append` on a Log opened on an empty
directory succeeds — in particular the caller never sees IndexFull. -/
theorem log_no_indexfull_c4 (c0 : Config)
    (hdvd : 12 ∣ c0.effective.segment.max_index_bytes) (rs : List Record) :
    allOk ((Log.mkEmpty c0).appendAll rs).1 = true :=
  ((rotInv_mkEmpty c0).appendAll_ok hdvd rs).1

/-- Witness for the amended C4: four appends under a 36-byte index cap
(three entries per segment) all succeed, rotating as needed. -/
theorem log_no_indexfull_c4_witness :
    (12 ∣ (Config.effective ⟨⟨16, 36, 0⟩⟩).segment.max_index_bytes) ∧
    allOk ((Log.mkEmpty ⟨⟨16, 36, 0⟩⟩).appendAll
      [⟨[], 0⟩, ⟨[], 0⟩, ⟨[], 0⟩, ⟨[], 0⟩]).1 = true :=
  ⟨by decide, log_no_indexfull_c4 ⟨⟨16, 36, 0⟩⟩ (by decide) _⟩

/-- A read result that is an error return whose message contains the
substring "out of range". -/
def failsOutOfRange (res : RustResult Record) : Prop :=
  ∃ e, res = .err e ∧ hasSubstr (Err.msg e) ("out of range".toList) = true

/-- Claim C5: `Log::read(offset)` delegates to the first segment `s`
with `s.base_offset <= offset < s.next_offset`, and fails with an error
whose message contains "out of range" if and only if no segment covers
`offset`. -/
theorem log_read_c5 (l : Log) (off : Nat) :
    (∀ s, l.segments.find? (coversb off) = some s → l.read off = s.read off) ∧
    (failsOutOfRange (l.read off) ↔
      ¬ ∃ s ∈ l.segments, s.base_offset ≤ off ∧ off < s.next_offset) := by
  constructor
  · intro s hf
    rw [Log.read_eq_readSegs, readSegs, hf]
  · constructor
    · rintro ⟨e, he, hsub⟩ ⟨s, hs, hc1, hc2⟩
      have hsome : (l.segments.find? (coversb off)).isSome := by
        rw [List.find?_isSome]
        refine ⟨s, hs, ?_⟩
        simp only [coversb, Bool.and_eq_true, decide_eq_true_eq]
        exact ⟨hc1, hc2⟩
      obtain ⟨s', hf⟩ := Option.isSome_iff_exists.mp hsome
      have hdel : l.read off = s'.read off := by
        rw [Log.read_eq_readSegs, readSegs, hf]
      rw [hdel] at he
      rcases Segment.read_err_kinds s' off e he with h | h | h <;>
        (subst h; exact absurd hsub (by decide))
    · intro hnone
      have hf : l.segments.find? (coversb off) = none := by
        rw [List.find?_eq_none]
        intro x hx hpx
        simp only [coversb, Bool.and_eq_true, decide_eq_true_eq] at hpx
        exact hnone ⟨x, hx, hpx.1, hpx.2⟩
      have hor : l.read off = .err (.outOfRange off) := by
        rw [Log.read_eq_readSegs, readSegs, hf]
      exact ⟨.outOfRange off, hor, outOfRange_msg_has off⟩

/-- Witness for C5: a fresh empty-directory log covers no offset, and
`read 3` fails with an "out of range" error. -/
theorem log_read_c5_witness :
    failsOutOfRange ((Log.mkEmpty ⟨⟨64, 36, 0⟩⟩).read 3) :=
  (log_read_c5 (Log.mkEmpty ⟨⟨64, 36, 0⟩⟩) 3).2.mpr (by decide)

end LogServer

namespace LogServer

/-- Claim C3 (failing input): after a truncate that removes a segment,
`active_segment_idx` still holds the old position (2), which is out of
bounds for the remaining two segments, so the next `Log::append` panics
("no segment at the active segment idx") instead of appending to the
last remaining segment. -/
theorem log_truncate_active_c3 :
    ((((Log.mkEmpty ⟨⟨1, 36, 0⟩⟩).appendAll
        [⟨[1], 0⟩, ⟨[1], 0⟩]).2.truncate 0).segments.length = 2) ∧
    ((((Log.mkEmpty ⟨⟨1, 36, 0⟩⟩).appendAll
        [⟨[1], 0⟩, ⟨[1], 0⟩]).2.truncate 0).active_segment_idx = some 2) ∧
    (((((Log.mkEmpty ⟨⟨1, 36, 0⟩⟩).appendAll
        [⟨[1], 0⟩, ⟨[1], 0⟩]).2.truncate 0).append ⟨[1], 0⟩).1 = .panicked) := by
  decide

theorem SegsInv.next_ub {c b parts ss} (h : SegsInv c b parts ss) :
    ∀ s ∈ ss, s.next_offset ≤ b + totalLen parts := by
  induction h with
  | nil => intro s hs; simp at hs
  | cons h1 h2 ih =>
      rename_i b' recs s' parts' ss'
      intro s hs
      rcases List.mem_cons.mp hs with hx | hx
      · subst hx
        rw [h1.2.1, totalLen_cons]
        omega
      · have := ih s hx
        rw [totalLen_cons]
        omega

/-- Claim C6: `Log::truncate(lowest)` keeps exactly the segments with
`next_offset > lowest + 1`, in order and unchanged, and `read(k)` for
every offset `k` covered by a retained segment is unchanged and still
returns its original payload. -/
theorem log_truncate_c6 (c0 : Config) (rs : List Record)
    (hfit : c0.effective.segment.max_index_bytes ≤ 12 * 2 ^ 32)
    (h64 : framesLen rs < 2 ^ 64)
    (hok : allOk ((Log.mkEmpty c0).appendAll rs).1 = true)
    (lowest : Nat) :
    ((((Log.mkEmpty c0).appendAll rs).2.truncate lowest).segments
      = ((Log.mkEmpty c0).appendAll rs).2.segments.filter
          (fun s => !decide (s.next_offset ≤ lowest + 1))) ∧
    (∀ s ∈ ((Log.mkEmpty c0).appendAll rs).2.segments,
      s ∈ (((Log.mkEmpty c0).appendAll rs).2.truncate lowest).segments ↔
        lowest + 1 < s.next_offset) ∧
    ∀ k, (∃ s ∈ (((Log.mkEmpty c0).appendAll rs).2.truncate lowest).segments,
        s.base_offset ≤ k ∧ k < s.next_offset) →
      (((Log.mkEmpty c0).appendAll rs).2.truncate lowest).read k
        = ((Log.mkEmpty c0).appendAll rs).2.read k ∧
      ∃ rec, (((Log.mkEmpty c0).appendAll rs).2.truncate lowest).read k
        = .ok rec := by
  have H0 := logInv_mkEmpty c0
  have hbud : framesLen ([[]] : List (List Record)).flatten + framesLen rs < 2 ^ 64 := by
    simpa [framesLen] using h64
  obtain ⟨parts', H, hflat, -⟩ := appendAll_inv rs [[]] (Log.mkEmpty c0) H0 hbud hok
  obtain ⟨hcfg, hpne, hsegs, hact, hseal, hroom⟩ := H
  refine ⟨rfl, ?_, ?_⟩
  · intro s hs
    constructor
    · intro hmem
      have h2 := (List.mem_filter.mp hmem).2
      simp only [Bool.not_eq_eq_eq_not, Bool.not_true, decide_eq_false_iff_not,
        not_le] at h2
      exact h2
    · intro hlt
      refine List.mem_filter.mpr ⟨hs, ?_⟩
      simp only [Bool.not_eq_eq_eq_not, Bool.not_true, decide_eq_false_iff_not,
        not_le]
      exact hlt
  · rintro k ⟨s, hs, hk1, hk2⟩
    have hcovb : coversb k s = true := by
      simp only [coversb, Bool.and_eq_true, decide_eq_true_eq]
      exact ⟨hk1, hk2⟩
    have heq : (((Log.mkEmpty c0).appendAll rs).2.truncate lowest).read k
        = ((Log.mkEmpty c0).appendAll rs).2.read k := by
      rw [Log.read_eq_readSegs, Log.read_eq_readSegs]
      exact hsegs.readSegs_filter _ k ⟨s, hs, hcovb⟩
    refine ⟨heq, ?_⟩
    have hsmem : s ∈ ((Log.mkEmpty c0).appendAll rs).2.segments :=
      List.mem_of_mem_filter hs
    have hb := hsegs.base_lb s hsmem
    have hub := hsegs.next_ub s hsmem
    obtain ⟨r0, -, hread⟩ :=
      LogInv.read_ok ⟨hcfg, hpne, hsegs, hact, hseal, hroom⟩ hfit k
        (by omega) (by omega)
    exact ⟨_, heq ▸ hread⟩

/-- Witness for C6: after rotation and `truncate 0` the offset 1 is
still readable, unchanged. -/
theorem log_truncate_c6_witness :
    ((((Log.mkEmpty ⟨⟨1, 36, 0⟩⟩).appendAll
        [⟨[1], 0⟩, ⟨[2], 0⟩]).2.truncate 0).read 1
      = ((Log.mkEmpty ⟨⟨1, 36, 0⟩⟩).appendAll [⟨[1], 0⟩, ⟨[2], 0⟩]).2.read 1) ∧
    ∃ rec, (((Log.mkEmpty ⟨⟨1, 36, 0⟩⟩).appendAll
        [⟨[1], 0⟩, ⟨[2], 0⟩]).2.truncate 0).read 1 = .ok rec :=
  (log_truncate_c6 ⟨⟨1, 36, 0⟩⟩ [⟨[1], 0⟩, ⟨[2], 0⟩]
    (by decide) (by decide) (by decide) 0).2.2 1 (by decide)

/-- Claim C9: `Segment::append` encodes the record before assigning
`record.offset = next_offset`, so the persisted bytes carry the offset
field the record had when passed in; reading the appended offset back
returns a `Record` whose offset field is that pre-append value, not
necessarily the requested offset (the caller's record is mutated to the
assigned offset). -/
theorem segment_append_offset_c9 {c b recs} {s : Segment}
    (h : SegInv c b recs s) (r : Record)
    (hfit : c.segment.max_index_bytes ≤ 12 * 2 ^ 32)
    (hroom : 12 * recs.length + 12 ≤ c.segment.max_index_bytes)
    (h64 : framesLen recs + frameLen r < 2 ^ 64) :
    (s.append r).1 = .ok s.next_offset ∧
    (s.append r).2.1.offset = s.next_offset ∧
    (s.append r).2.2.read s.next_offset
      = .ok { value := r.value, offset := r.offset % 2 ^ 64 } := by
  obtain ⟨hres, hrec, hseg'⟩ := h.append_ok r hroom h64
  have hnext : s.next_offset = b + recs.length := h.2.1
  refine ⟨by rw [hnext, hres], by rw [hnext, hrec], ?_⟩
  obtain ⟨r0, hr0, hread⟩ := hseg'.seg_read hfit (b + recs.length) (by omega)
    (by simp only [List.length_append, List.length_cons, List.length_nil]; omega)
  rw [show b + recs.length - b = recs.length by omega, get?_concat] at hr0
  have hr0' : r = r0 := Option.some.inj hr0
  rw [hnext, hread, ← hr0']

/-- Witness for C9: appending a record whose offset field is 3 to a
fresh segment at base 16 assigns offset 16 but the read-back offset
field is 3. -/
theorem segment_append_offset_c9_witness :
    SegInv ⟨⟨1024, 36, 0⟩⟩ 16 [] (freshSeg ⟨⟨1024, 36, 0⟩⟩ 16) ∧
    ((freshSeg ⟨⟨1024, 36, 0⟩⟩ 16).append ⟨[9], 3⟩).2.2.read
        (freshSeg ⟨⟨1024, 36, 0⟩⟩ 16).next_offset
      = .ok { value := [9], offset := 3 % 2 ^ 64 } :=
  ⟨segInv_fresh _ _,
   (segment_append_offset_c9 (segInv_fresh ⟨⟨1024, 36, 0⟩⟩ 16) ⟨[9], 3⟩
     (by decide) (by decide) (by decide)).2.2⟩

/-- Claim C10: for a segment whose index entries were produced by its
own appends and `base_offset ≤ offset < next_offset`, the `u64`
subtraction in `Segment::read` does not wrap, the resolved row lies
strictly within the written entries (`row*12 + 12 ≤ size ≤ mmap.len`),
the empty-index error branch is unreachable, and `Index::read` returns
`ok` (no slice panics). -/
theorem segment_read_bounds_c10 {c b recs} {s : Segment}
    (h : SegInv c b recs s)
    (hfit : c.segment.max_index_bytes ≤ 12 * 2 ^ 32)
    (off : Nat) (h1 : b ≤ off) (h2 : off < s.next_offset) :
    u64sub off s.base_offset = off - b ∧
    (off - b) * 12 + 12 ≤ s.index.size ∧
    s.index.size ≤ s.index.mmap.length ∧
    s.index.size ≠ 0 ∧
    ∃ v, s.index.read (i64OfU64 (u64sub off s.base_offset)) = .ok v := by
  have hmml := h.mmap_length
  have hb := h.1
  have hnext := h.2.1
  have hsz := h.2.2.1
  have hroom := h.2.2.2.1
  have hk : off - b < recs.length := by omega
  have hk32 : off - b < 2 ^ 32 := by omega
  have hsub : u64sub off s.base_offset = off - b := by
    rw [hb]
    have hx := u64sub_of_lt b (off - b) (by omega)
    rwa [show b + (off - b) = off by omega] at hx
  obtain ⟨hi64, -⟩ := i64OfU64_ofNat_ne_neg_one (off - b) (by omega)
  refine ⟨hsub, by omega, by omega, by omega, ?_⟩
  rw [hsub, hi64]
  exact ⟨_, h.index_read hfit (off - b) hk⟩

/-- Witness for C10 on a one-record segment at base 5, reading offset 5. -/
theorem segment_read_bounds_c10_witness :
    SegInv ⟨⟨1024, 36, 0⟩⟩ 5 [⟨[1], 0⟩]
      ((freshSeg ⟨⟨1024, 36, 0⟩⟩ 5).append ⟨[1], 0⟩).2.2 ∧
    ∃ v, ((freshSeg ⟨⟨1024, 36, 0⟩⟩ 5).append ⟨[1], 0⟩).2.2.index.read
        (i64OfU64 (u64sub 5
          ((freshSeg ⟨⟨1024, 36, 0⟩⟩ 5).append ⟨[1], 0⟩).2.2.base_offset))
      = .ok v :=
  ⟨by decide,
   (segment_read_bounds_c10
     (show SegInv ⟨⟨1024, 36, 0⟩⟩ 5 [⟨[1], 0⟩]
        ((freshSeg ⟨⟨1024, 36, 0⟩⟩ 5).append ⟨[1], 0⟩).2.2 by decide)
     (by decide) 5 (by decide) (by decide)).2.2.2.2⟩

end LogServer
